import Mathlib

/-!
# jack-ir: impulse response capture, post-processing and capture scheduling

A shallow embedding of `jack-ir.cc`.

* `float** data` is a function from channel index and sample index to a sample.
* Samples are the rational values of finite `float`s. Comparisons and `fabsf` are
  exact. The functions that compute with samples (`normalize_peak`, `trim_end`) take the
  rounding `fl` of an exact result to `float` as a parameter; the theorems about computed
  values instantiate it with `f32_rne`, single-precision round to nearest, ties to even,
  with subnormal values. Infinite values and NaN are not modelled.
* The thresholds computed with `exp10f` are parameters of the functions that
  use them; the single-precision values are given as rational constants.
* `uint32_t` values are natural numbers, reduced modulo `2^32` where the source
  computes them; an `assert` that fails makes the function return `none`.
* The segment lengths of `gensweep` are `float` products converted to `int`: the
  product is the exact one rounded to a 24-bit significand (ties to even), the
  conversion truncates toward zero.
* The synthesis loop of `gensweep` is modelled in exact arithmetic on a field; the
  `<math.h>` functions it calls are parameters, instantiated with the real functions
  where a concrete value is needed.
-/

namespace JackIr

/-- The sample buffers `float** data`: channel index first, then sample index. -/
abbrev Buffers (α : Type) := Nat → Nat → α

/-- The `float` nearest to `10 ^ (-3 / 20)`: the value of `exp10f (.05 * -3)`, the
-3 dBFS target. -/
def level_m3dBFS : ℚ := 11877359 / 16777216

/-- The `float` nearest to `10 ^ (-20 / 20)`: the value of `exp10f (.05 * -20)`, the
-20 dBFS level. -/
def level_m20dBFS : ℚ := 13421773 / 134217728

/-- The `float` nearest to `10 ^ (-60 / 20)`: the value of `exp10f (.05 * -60)`, the
-60 dBFS level. -/
def level_m60dBFS : ℚ := 8589935 / 8589934592

section PostProcessor

variable {α : Type} [LinearOrderedField α]

/-- The inner loop of `digital_peak` over the samples of channel `c`,
starting from the running maximum `sig_max`. -/
def digital_peak_chan (n_samples : Nat) (data : Buffers α) (c : Nat) (sig_max : α) : α :=
  (List.range n_samples).foldl
    (fun sig_max n =>
      let s := |data c n|
      if s > sig_max then s else sig_max)
    sig_max

/-- `digital_peak`: the largest absolute sample over all channels. -/
def digital_peak (n_channels n_samples : Nat) (data : Buffers α) : α :=
  (List.range n_channels).foldl
    (fun sig_max c => digital_peak_chan n_samples data c sig_max)
    0

/-- `normalize_peak`: returns the gain and the buffers after the call.
`target` is the local `exp10f (.05 * -3)`; `fl` rounds the exact result of a `float`
operation to `float`, so `fl (target / sig_max)` is the `float` division and
`fl (data c n * g)` the `float` multiplication of the source. -/
def normalize_peak (fl : α → α) (target : α) (n_channels n_samples : Nat)
    (data : Buffers α) : α × Buffers α :=
  let sig_max := digital_peak n_channels n_samples data
  if sig_max = 0 ∨ sig_max > target then
    (1, data)
  else
    let g := fl (target / sig_max)
    (g, fun c n => if c < n_channels ∧ n < n_samples then fl (data c n * g) else data c n)

/-- The channel loop of `trim_end` at sample `n`: from the flag `init` before the
sample it returns the flag `init` after it and the local `silent`. -/
def trim_chan_scan (sig_lvl sig_min : α) (n_channels : Nat) (data : Buffers α) (n : Nat)
    (init : Bool) : Bool × Bool :=
  (List.range n_channels).foldl
    (fun (st : Bool × Bool) c =>
      let s := |data c n|
      (if s > sig_lvl then false else st.1, if s > sig_min then false else st.2))
    (init, !init)

/-- The search loop of `trim_end`, with `k` iterations left at sample `n`, silence counter
`t` and flag `init`; the result is `tme_trim` (`n_samples` when the loop ends without
`break`). -/
def trim_search (sig_lvl sig_min : α) (tme_min n_channels n_samples : Nat) (data : Buffers α) :
    Nat → Nat → Nat → Bool → Nat
  | 0, _, _, _ => n_samples
  | k + 1, n, t, init =>
    let st := trim_chan_scan sig_lvl sig_min n_channels data n init
    if st.2 then
      if t + 1 > tme_min then n
      else trim_search sig_lvl sig_min tme_min n_channels n_samples data k (n + 1) (t + 1) st.1
    else trim_search sig_lvl sig_min tme_min n_channels n_samples data k (n + 1) 0 st.1

/-- `trim_end`: returns the cut index and the buffers after the call, or `none` when
one of its two assertions fails. `sig_lvl` and `sig_min` are the locals
`exp10f (.05 * -20)` and `exp10f (.05 * -60)`; `fl` rounds the exact result of a `float`
operation, or an integer converted to `float`, to `float`: the fade gain
`1.f - (n / (float)tme_min)` is `fl (1 - fl (fl n / fl tme_min))` and the product
`data[c][off + n] *= g` is `fl (data c (off + n) * g)`. -/
def trim_end (fl : α → α) (sig_lvl sig_min : α) (n_channels rate n_samples : Nat)
    (data : Buffers α) : Option (Nat × Buffers α) :=
  let tme_min := rate / 20
  if ¬ (n_samples > tme_min) then none
  else
    let tme_trim :=
      trim_search sig_lvl sig_min tme_min n_channels n_samples data n_samples 0 0 true
    if ¬ (tme_trim ≥ tme_min) then none
    else
      let off := tme_trim - tme_min
      let faded : Buffers α := fun c i =>
        if c < n_channels ∧ off ≤ i ∧ i < off + tme_min then
          fl (data c i * fl (1 - fl (fl ((i - off : Nat) : α) / fl (tme_min : α))))
        else data c i
      let zeroed : Buffers α := fun c i =>
        if c < n_channels ∧ tme_trim ≤ i ∧ i < n_samples then 0 else faded c i
      some (tme_trim, zeroed)

/-- Specification predicate: some channel exceeded `sig_lvl` at a sample before `n`
(the "signal seen" flag is armed when sample `n` is examined). -/
def armed_before (sig_lvl : α) (n_channels : Nat) (data : Buffers α) (n : Nat) : Prop :=
  ∃ m, m < n ∧ ∃ c, c < n_channels ∧ |data c m| > sig_lvl

/-- Specification predicate: no channel exceeds `sig_min` at sample `n`. -/
def quiet_at (sig_min : α) (n_channels : Nat) (data : Buffers α) (n : Nat) : Prop :=
  ∀ c, c < n_channels → ¬ |data c n| > sig_min

/-- Specification predicate: sample `n` counts as silence, that is the flag is armed
before it and no channel exceeds `sig_min` at it. -/
def silent_at (sig_lvl sig_min : α) (n_channels : Nat) (data : Buffers α) (n : Nat) : Prop :=
  armed_before sig_lvl n_channels data n ∧ quiet_at sig_min n_channels data n

instance (sig_lvl : α) (n_channels : Nat) (data : Buffers α) (n : Nat) :
    Decidable (armed_before sig_lvl n_channels data n) := by
  unfold armed_before
  infer_instance

instance (sig_min : α) (n_channels : Nat) (data : Buffers α) (n : Nat) :
    Decidable (quiet_at sig_min n_channels data n) := by
  unfold quiet_at
  infer_instance

instance (sig_lvl sig_min : α) (n_channels : Nat) (data : Buffers α) (n : Nat) :
    Decidable (silent_at sig_lvl sig_min n_channels data n) := by
  unfold silent_at
  infer_instance

/-- A test input: the samples `19/64` and `1/8` on every channel. -/
def quiet_input : Buffers ℚ := fun _ n => if n = 0 then 19 / 64 else 1 / 8

/-- A test input: a full-scale sample, four samples of `1/2048` (below -60 dBFS), then
full-scale samples again, on every channel. -/
def fade_input : Buffers ℚ := fun _ n => if n = 0 then 1 else if n < 5 then 1 / 2048 else 1

/-- A test input: a unit impulse at sample `0` on every channel, silence after it. -/
def impulse_input : Buffers ℚ := fun _ n => if n = 0 then 1 else 0

end PostProcessor

section Latency

/-- Reduction of an integer to `uint32_t`. -/
def to_u32 (n : Int) : Nat := (n % 4294967296).toNat

/-- Conversion of a `uint32_t` value to `int` (two's complement). -/
def to_i32 (n : Nat) : Int :=
  if n % 4294967296 < 2147483648 then (n % 4294967296 : Nat) else (n % 4294967296 : Nat) - 4294967296

/-- The latency selection of `main`: `latency` is the `-L` option (an `int`),
`roundtrip_latency` the measured `uint32_t`; the result is the local `int lat`. -/
def effective_latency (latency : Int) (roundtrip_latency : Nat) : Int :=
  if latency > 0 then
    latency
  else if roundtrip_latency > 3 then
    to_i32 (roundtrip_latency - 4)
  else
    to_i32 roundtrip_latency

/-- What the end of `main` did: the `sf_write` call it made, if any, as
`(off_start, n_frames)`, whether "IR is too short or empty" was printed, and `rv`. -/
structure WriteOutcome where
  sf_write_call : Option (Nat × Nat)
  too_short : Bool
  rv : Int
  deriving DecidableEq, Repr

/-- The too-short check and the `sf_write` call of `main`. `sf_rv` is the value
`sf_write` returns when it is called; `rv` starts at `-1`. -/
def write_window (trimed_len sweep_len : Nat) (lat : Int) (sf_rv : Int) : WriteOutcome :=
  if trimed_len < to_u32 (sweep_len + lat) then
    { sf_write_call := none, too_short := true, rv := -1 }
  else
    let ir_len := to_u32 (trimed_len - to_u32 (sweep_len + lat))
    { sf_write_call := some (to_u32 (sweep_len + lat), ir_len), too_short := false, rv := sf_rv }

end Latency

section CaptureScheduler

/-- The values of the `client_state` enumeration. -/
inductive ClientState where
  | Initialize
  | Run
  | Exit
  | Abort
  deriving DecidableEq, Repr

/-- The file-scope variables the real-time callback reads and writes. `ir` holds the
capture buffers (slot index, then sample index), `sweep_sin` the playback signal. -/
structure Session (α : Type) where
  n_ir : Nat
  n_inputs : Nat
  n_outputs : Nat
  true_stereo : Bool
  true_stereo_pass : Nat
  ir : Buffers α
  sweep_sin : Nat → α
  sweep_len : Nat
  irrec_len : Nat
  proc_pos : Nat
  proc_tot : Nat
  client_state : ClientState

/-- One call of the process callback: the block size and the contents of the input
port buffers (port index, then frame index). -/
structure Block (α : Type) where
  n_samples : Nat
  inp : Buffers α

/-- Addition of two `uint32_t` values. -/
def u32_add (a b : Nat) : Nat := (a + b) % 4294967296

variable {α : Type}

/-- `process_multi_pass`: from the state and the output port buffers (port index, then
frame index) to the state and output buffers after the call; `none` when the assertion
fails. -/
def process_multi_pass (n_samples : Nat) (inp : Buffers α) (s : Session α) (out : Buffers α) :
    Option (Session α × Buffers α) :=
  if ¬ (s.n_outputs = 2 ∧ s.n_inputs = 2 ∧ s.n_ir = 4) then none
  else
    let fp : Bool := decide (s.true_stereo_pass > 0)
    let out1 : Buffers α :=
      if s.proc_pos < s.sweep_len then
        let n_play :=
          if u32_add s.proc_pos n_samples < s.sweep_len then n_samples
          else s.sweep_len - s.proc_pos
        fun port k =>
          if port = (if fp then 0 else 1) ∧ k < n_play then s.sweep_sin (s.proc_pos + k)
          else out port k
      else out
    let ir1 : Buffers α :=
      if s.proc_pos < s.irrec_len then
        let n_rec :=
          if u32_add s.proc_pos n_samples < s.irrec_len then n_samples
          else s.irrec_len - s.proc_pos
        fun slot i =>
          if ((if fp then 0 else 2) ≤ slot ∧ slot < 2 + (if fp then 0 else 2))
              ∧ s.proc_pos ≤ i ∧ i < s.proc_pos + n_rec then
            inp (slot - (if fp then 0 else 2)) (i - s.proc_pos)
          else s.ir slot i
      else s.ir
    let proc_pos := u32_add s.proc_pos n_samples
    if proc_pos > u32_add s.irrec_len s.true_stereo_pass then
      if fp then
        some ({ s with ir := ir1, proc_pos := 0, true_stereo_pass := 0 }, out1)
      else
        some ({ s with ir := ir1, proc_pos := proc_pos, client_state := ClientState.Exit }, out1)
    else
      some ({ s with ir := ir1, proc_pos := proc_pos }, out1)

/-- `process_single_pass`: as `process_multi_pass`, for the single-pass policy. -/
def process_single_pass (n_samples : Nat) (inp : Buffers α) (s : Session α) (out : Buffers α) :
    Option (Session α × Buffers α) :=
  if ¬ (s.n_inputs = s.n_ir) then none
  else
    let out1 : Buffers α :=
      if s.proc_pos < s.sweep_len then
        let n_play :=
          if u32_add s.proc_pos n_samples < s.sweep_len then n_samples
          else s.sweep_len - s.proc_pos
        fun port k =>
          if port < s.n_outputs ∧ k < n_play then s.sweep_sin (s.proc_pos + k)
          else out port k
      else out
    let ir1 : Buffers α :=
      if s.proc_pos < s.irrec_len then
        let n_rec :=
          if u32_add s.proc_pos n_samples < s.irrec_len then n_samples
          else s.irrec_len - s.proc_pos
        fun slot i =>
          if slot < s.n_inputs ∧ s.proc_pos ≤ i ∧ i < s.proc_pos + n_rec then
            inp slot (i - s.proc_pos)
          else s.ir slot i
      else s.ir
    let proc_pos := u32_add s.proc_pos n_samples
    if proc_pos > s.irrec_len then
      some ({ s with ir := ir1, proc_pos := proc_pos, client_state := ClientState.Exit }, out1)
    else
      some ({ s with ir := ir1, proc_pos := proc_pos }, out1)

/-- `jack_process`: one block of the real-time callback. The output buffers start
zeroed (the `memset` loop); the result is the state and the output port buffers after
the call, `none` when an assertion fails. -/
def jack_process [Zero α] (n_samples : Nat) (inp : Buffers α) (s : Session α) :
    Option (Session α × Buffers α) :=
  let out : Buffers α := fun _ _ => 0
  if s.client_state ≠ ClientState.Run then some (s, out)
  else
    let r :=
      if s.true_stereo then process_multi_pass n_samples inp s out
      else process_single_pass n_samples inp s out
    match r with
    | none => none
    | some (s1, out1) => some ({ s1 with proc_tot := u32_add s1.proc_tot n_samples }, out1)

/-- The state after a sequence of blocks, each handed to `jack_process` in turn. -/
def run_blocks [Zero α] (s : Session α) : List (Block α) → Option (Session α)
  | [] => some s
  | b :: bs =>
    match jack_process b.n_samples b.inp s with
    | none => none
    | some (s1, _) => run_blocks s1 bs

/-- The number of samples in a sequence of blocks. -/
def blocks_total (bs : List (Block α)) : Nat := (bs.map Block.n_samples).sum

/-- Specification predicate: the configuration of a true-stereo session, which no
block changes. -/
def true_stereo_config (s0 s : Session α) : Prop :=
  s.true_stereo = true ∧ (s.n_outputs = 2 ∧ s.n_inputs = 2 ∧ s.n_ir = 4)
    ∧ s.irrec_len = s0.irrec_len ∧ s.sweep_len = s0.sweep_len ∧ s.sweep_sin = s0.sweep_sin

/-- Specification predicate: the phases of a true-stereo session with silence gap `G`.
Pass 0 is active (`Run`, `true_stereo_pass = G`), pass 1 is active (`Run`,
`true_stereo_pass = 0`), or the session is over. -/
def true_stereo_phase (G : Nat) (s : Session α) : Prop :=
  (s.client_state = ClientState.Run ∧ s.true_stereo_pass = G
      ∧ s.proc_pos ≤ s.irrec_len + G)
    ∨ (s.client_state = ClientState.Run ∧ s.true_stereo_pass = 0
      ∧ s.proc_pos ≤ s.irrec_len)
    ∨ s.client_state = ClientState.Exit

/-- A test session with integer samples: state `Run`, cursor `0`, empty capture buffers
and a constant playback signal. -/
def test_session (n_ir n_inputs n_outputs : Nat) (true_stereo : Bool)
    (true_stereo_pass sweep_len irrec_len : Nat) : Session Int :=
  { n_ir := n_ir, n_inputs := n_inputs, n_outputs := n_outputs, true_stereo := true_stereo,
    true_stereo_pass := true_stereo_pass, ir := fun _ _ => 0, sweep_sin := fun _ => 5,
    sweep_len := sweep_len, irrec_len := irrec_len, proc_pos := 0, proc_tot := 0,
    client_state := ClientState.Run }

/-- A test block with integer samples: `n_samples` frames of the constant `7` on every
input port. -/
def test_block (n_samples : Nat) : Block Int :=
  { n_samples := n_samples, inp := fun _ _ => 7 }

end CaptureScheduler

section SweepGenerator

/-- Rounding of a rational to the nearest integer, ties to the even one. -/
def round_half_even (y : ℚ) : Int :=
  if y - ⌊y⌋ < 1 / 2 then ⌊y⌋
  else if y - ⌊y⌋ > 1 / 2 then ⌊y⌋ + 1
  else if ⌊y⌋ % 2 = 0 then ⌊y⌋
  else ⌊y⌋ + 1

/-- Rounding of an exact value to single precision `float`: a 24-bit significand,
round to nearest, ties to even. Exponent range limits (overflow, subnormal values) are
not modelled. -/
def f32_round (x : ℚ) : ℚ :=
  if x = 0 then 0
  else (round_half_even (x / (2 : ℚ) ^ (Int.log 2 |x| - 23)) : ℚ) * (2 : ℚ) ^ (Int.log 2 |x| - 23)

/-- The `float` constant `0.1f`. -/
def f32_0_1 : ℚ := 13421773 / 134217728

/-- The `float` constant `0.03f`. -/
def f32_0_03 : ℚ := 16106127 / 536870912

/-- Rounding of a non-negative exact value to `float`, subnormal range included: below
`2 ^ (-126)` the spacing of the values is `2 ^ (-149)`, from there on the significand has
24 bits. -/
def f32_rne_mag (y : ℚ) : ℚ :=
  if y < 1 / 2 ^ 126 then (round_half_even (y * 2 ^ 149) : ℚ) / 2 ^ 149
  else f32_round y

/-- Rounding of an exact value to `float` (IEEE 754 binary32, round to nearest, ties to
even): the sign is kept and the magnitude rounded. A result of magnitude `2 ^ 128` stands
for an overflow to infinity, which the model does not represent. -/
def f32_rne (x : ℚ) : ℚ :=
  if x < 0 then -f32_rne_mag (-x) else f32_rne_mag x

/-- Specification predicate: `x` is the value of a finite `float`. -/
def is_f32 (x : ℚ) : Prop := f32_rne x = x

instance (x : ℚ) : Decidable (is_f32 x) := by
  unfold is_f32
  infer_instance

/-- Conversion of a `float` to `int`: truncation toward zero. -/
def f32_to_int (x : ℚ) : Int := if 0 ≤ x then ⌊x⌋ else ⌈x⌉

set_option linter.unusedVariables false in
/-- The value `gensweep` returns, which is also the number of samples of the two arrays
it allocates: the sum of the three segment lengths, each the `int` conversion of a
`float` product. The arguments are the values of the `float` parameters. -/
def gensweep (fmin fmax t_sec rate : ℚ) : Nat :=
  let n_samples_pre := f32_to_int (f32_round (rate * f32_0_1))
  let n_samples_sin := f32_to_int (f32_round (rate * t_sec))
  let n_samples_end := f32_to_int (f32_round (rate * f32_0_03))
  let n_samples := n_samples_pre + n_samples_sin + n_samples_end
  to_u32 n_samples

/-- The functions and the constant `gensweep` takes from `<math.h>`, on a field `K` of
exact values: `sin`, `exp`, `log`, `floor` and `M_PI`. -/
structure MathFns (K : Type) where
  sin : K → K
  exp : K → K
  log : K → K
  floor : K → K
  pi : K

/-- The local `n_samples_pre` of `gensweep`. -/
def gensweep_pre_len (rate : ℚ) : Int := f32_to_int (f32_round (rate * f32_0_1))

/-- The local `n_samples_sin` of `gensweep`. -/
def gensweep_sin_len (t_sec rate : ℚ) : Int := f32_to_int (f32_round (rate * t_sec))

/-- The local `n_samples_end` of `gensweep`. -/
def gensweep_end_len (rate : ℚ) : Int := f32_to_int (f32_round (rate * f32_0_03))

/-- The local `n_samples` of `gensweep`. -/
def gensweep_n_samples (t_sec rate : ℚ) : Int :=
  gensweep_pre_len rate + gensweep_sin_len t_sec rate + gensweep_end_len rate

variable {K : Type} [Field K]

/-- The local `amp` of `gensweep`. -/
def sweep_amp : K := 1 / 2

/-- The local `a` of `gensweep`, in exact arithmetic. -/
def sweep_a (m : MathFns K) (fmin fmax t_sec rate : ℚ) : K :=
  m.log ((fmax : K) / (fmin : K)) / ((gensweep_sin_len t_sec rate : Int) : K)

/-- The local `b` of `gensweep`. -/
def sweep_b (m : MathFns K) (fmin fmax t_sec rate : ℚ) : K :=
  (fmin : K) / (sweep_a m fmin fmax t_sec rate * (rate : K))

/-- The local `r` of `gensweep`. -/
def sweep_r (m : MathFns K) (fmin fmax t_sec rate : ℚ) : K :=
  4 * sweep_a m fmin fmax t_sec rate * sweep_a m fmin fmax t_sec rate / sweep_amp

/-- The local `gain` of `gensweep` in iteration `i`. -/
def sweep_gain (m : MathFns K) (t_sec rate : ℚ) (i : Nat) : K :=
  if (i : Int) < gensweep_pre_len rate then
    m.sin (1 / 2 * m.pi * (i : K) / ((gensweep_pre_len rate : Int) : K))
  else if gensweep_n_samples t_sec rate - i - 1 < gensweep_end_len rate then
    m.sin (1 / 2 * m.pi * ((gensweep_n_samples t_sec rate - i - 1 : Int) : K)
      / ((gensweep_end_len rate : Int) : K))
  else 1

/-- The local `d` of `gensweep` in iteration `i`. -/
def sweep_d (m : MathFns K) (fmin fmax t_sec rate : ℚ) (i : Nat) : K :=
  sweep_b m fmin fmax t_sec rate
    * m.exp (sweep_a m fmin fmax t_sec rate * (((i : Int) - gensweep_pre_len rate : Int) : K))

/-- The local `p` of `gensweep` in iteration `i`. -/
def sweep_p (m : MathFns K) (fmin fmax t_sec rate : ℚ) (i : Nat) : K :=
  sweep_d m fmin fmax t_sec rate i - sweep_b m fmin fmax t_sec rate

/-- The local `x` of `gensweep` in iteration `i`. -/
def sweep_x (m : MathFns K) (fmin fmax t_sec rate : ℚ) (i : Nat) : K :=
  sweep_gain m t_sec rate i
    * m.sin (2 * m.pi
        * (sweep_p m fmin fmax t_sec rate i - m.floor (sweep_p m fmin fmax t_sec rate i)))

/-- The synthesis loop of `gensweep` in exact arithmetic: from the contents of the freshly
allocated arrays `(sweep_sin, sweep_inv)` to their contents after the loop. Iteration `i`
stores `x * amp` at `sweep_sin[i]` and `x * d * r` at `sweep_inv[n_samples - i - 1]`. -/
def gensweep_arrays (m : MathFns K) (fmin fmax t_sec rate : ℚ)
    (arrays : (Nat → K) × (Nat → K)) : (Nat → K) × (Nat → K) :=
  (List.range (gensweep_n_samples t_sec rate).toNat).foldl
    (fun st i =>
      (Function.update st.1 i (sweep_x m fmin fmax t_sec rate i * sweep_amp),
       Function.update st.2 (gensweep_n_samples t_sec rate - i - 1).toNat
        (sweep_x m fmin fmax t_sec rate i * sweep_d m fmin fmax t_sec rate i
          * sweep_r m fmin fmax t_sec rate)))
    arrays

end SweepGenerator

/-! ## Peak measurement and normalisation -/

section PeakLemmas

variable {α : Type} [LinearOrderedField α]

lemma digital_peak_chan_zero (data : Buffers α) (c : Nat) (m : α) :
    digital_peak_chan 0 data c m = m := by
  simp [digital_peak_chan]

lemma digital_peak_chan_succ (n : Nat) (data : Buffers α) (c : Nat) (m : α) :
    digital_peak_chan (n + 1) data c m = max (digital_peak_chan n data c m) |data c n| := by
  simp only [digital_peak_chan, List.range_succ, List.foldl_append, List.foldl_cons,
    List.foldl_nil]
  split_ifs with h
  · exact (max_eq_right (le_of_lt h)).symm
  · exact (max_eq_left (not_lt.mp h)).symm

lemma digital_peak_zero (n_samples : Nat) (data : Buffers α) :
    digital_peak 0 n_samples data = 0 := by
  simp [digital_peak]

lemma digital_peak_succ (k n_samples : Nat) (data : Buffers α) :
    digital_peak (k + 1) n_samples data
      = digital_peak_chan n_samples data k (digital_peak k n_samples data) := by
  simp [digital_peak, List.range_succ, List.foldl_append]

lemma le_digital_peak_chan (n : Nat) (data : Buffers α) (c : Nat) (m : α) :
    m ≤ digital_peak_chan n data c m := by
  induction n with
  | zero => simp [digital_peak_chan_zero]
  | succ n ih => rw [digital_peak_chan_succ]; exact le_trans ih (le_max_left _ _)

lemma abs_le_digital_peak_chan (n : Nat) (data : Buffers α) (c : Nat) (m : α)
    (i : Nat) (hi : i < n) : |data c i| ≤ digital_peak_chan n data c m := by
  induction n with
  | zero => omega
  | succ n ih =>
    rw [digital_peak_chan_succ]
    rcases Nat.lt_succ_iff_lt_or_eq.mp hi with h | h
    · exact le_trans (ih h) (le_max_left _ _)
    · subst h; exact le_max_right _ _

lemma digital_peak_nonneg (k n_samples : Nat) (data : Buffers α) :
    0 ≤ digital_peak k n_samples data := by
  induction k with
  | zero => simp [digital_peak_zero]
  | succ k ih => rw [digital_peak_succ]; exact le_trans ih (le_digital_peak_chan _ _ _ _)

/-- Every sample inside the measured range is bounded by the peak. -/
lemma abs_le_digital_peak (k n_samples : Nat) (data : Buffers α)
    (c : Nat) (hc : c < k) (i : Nat) (hi : i < n_samples) :
    |data c i| ≤ digital_peak k n_samples data := by
  induction k with
  | zero => omega
  | succ k ih =>
    rw [digital_peak_succ]
    rcases Nat.lt_succ_iff_lt_or_eq.mp hc with h | h
    · exact le_trans (ih h) (le_digital_peak_chan _ _ _ _)
    · subst h; exact abs_le_digital_peak_chan _ _ _ _ i hi

lemma digital_peak_chan_scale (g : α) (hg : 0 ≤ g) (n : Nat) (data data2 : Buffers α)
    (c : Nat) (m : α) (h : ∀ i, i < n → data2 c i = data c i * g) :
    digital_peak_chan n data2 c (g * m) = g * digital_peak_chan n data c m := by
  induction n with
  | zero => simp [digital_peak_chan_zero]
  | succ n ih =>
    rw [digital_peak_chan_succ, digital_peak_chan_succ,
      ih (fun i hi => h i (Nat.lt_succ_of_lt hi)), h n (Nat.lt_succ_self n),
      abs_mul, abs_of_nonneg hg, mul_comm |data c n| g, mul_max_of_nonneg _ _ hg]

/-- Scaling every measured sample by a non-negative gain scales the peak. -/
lemma digital_peak_scale (g : α) (hg : 0 ≤ g) (k n_samples : Nat) (data data2 : Buffers α)
    (h : ∀ c, c < k → ∀ i, i < n_samples → data2 c i = data c i * g) :
    digital_peak k n_samples data2 = g * digital_peak k n_samples data := by
  induction k with
  | zero => simp [digital_peak_zero]
  | succ k ih =>
    rw [digital_peak_succ, digital_peak_succ, ih (fun c hc => h c (Nat.lt_succ_of_lt hc)),
      digital_peak_chan_scale g hg n_samples data data2 k _ (h k (Nat.lt_succ_self k))]

end PeakLemmas

/-! ## Silence trimming -/

section TrimLemmas

variable {α : Type} [LinearOrderedField α]

lemma trim_chan_scan_succ (sig_lvl sig_min : α) (k : Nat) (data : Buffers α) (n : Nat)
    (init : Bool) :
    trim_chan_scan sig_lvl sig_min (k + 1) data n init
      = (if |data k n| > sig_lvl then false
          else (trim_chan_scan sig_lvl sig_min k data n init).1,
         if |data k n| > sig_min then false
          else (trim_chan_scan sig_lvl sig_min k data n init).2) := by
  simp [trim_chan_scan, List.range_succ, List.foldl_append]

/-- The flag `init` stays set exactly when it was set and no channel exceeds `sig_lvl`. -/
lemma trim_chan_scan_fst (sig_lvl sig_min : α) (k : Nat) (data : Buffers α) (n : Nat)
    (init : Bool) :
    (trim_chan_scan sig_lvl sig_min k data n init).1 = true
      ↔ init = true ∧ ∀ c, c < k → ¬ |data c n| > sig_lvl := by
  induction k with
  | zero => simp [trim_chan_scan]
  | succ k ih =>
    rw [trim_chan_scan_succ]
    by_cases h : |data k n| > sig_lvl
    · simp only [h, if_true]
      constructor
      · intro hf; exact absurd hf (by simp)
      · rintro ⟨_, hall⟩; exact absurd h (hall k (Nat.lt_succ_self k))
    · simp only [h, if_false, ih]
      constructor
      · rintro ⟨hi, hall⟩
        refine ⟨hi, fun c hc => ?_⟩
        rcases Nat.lt_succ_iff_lt_or_eq.mp hc with hc | hc
        · exact hall c hc
        · subst hc; exact h
      · rintro ⟨hi, hall⟩
        exact ⟨hi, fun c hc => hall c (Nat.lt_succ_of_lt hc)⟩

/-- The local `silent` ends up set exactly when `init` was clear before the sample and no
channel exceeds `sig_min` at it. -/
lemma trim_chan_scan_snd (sig_lvl sig_min : α) (k : Nat) (data : Buffers α) (n : Nat)
    (init : Bool) :
    (trim_chan_scan sig_lvl sig_min k data n init).2 = true
      ↔ init = false ∧ quiet_at sig_min k data n := by
  induction k with
  | zero => simp [trim_chan_scan, quiet_at]
  | succ k ih =>
    rw [trim_chan_scan_succ]
    by_cases h : |data k n| > sig_min
    · simp only [h, if_true]
      constructor
      · intro hf; exact absurd hf (by simp)
      · rintro ⟨_, hall⟩; exact absurd h (hall k (Nat.lt_succ_self k))
    · simp only [h, if_false, ih]
      constructor
      · rintro ⟨hi, hall⟩
        refine ⟨hi, fun c hc => ?_⟩
        rcases Nat.lt_succ_iff_lt_or_eq.mp hc with hc | hc
        · exact hall c hc
        · subst hc; exact h
      · rintro ⟨hi, hall⟩
        exact ⟨hi, fun c hc => hall c (Nat.lt_succ_of_lt hc)⟩

lemma armed_before_succ (sig_lvl : α) (n_channels : Nat) (data : Buffers α) (n : Nat) :
    armed_before sig_lvl n_channels data (n + 1)
      ↔ armed_before sig_lvl n_channels data n
        ∨ ∃ c, c < n_channels ∧ |data c n| > sig_lvl := by
  constructor
  · rintro ⟨m, hm, c, hc, h⟩
    rcases Nat.lt_succ_iff_lt_or_eq.mp hm with hm | hm
    · exact Or.inl ⟨m, hm, c, hc, h⟩
    · subst hm; exact Or.inr ⟨c, hc, h⟩
  · rintro (⟨m, hm, c, hc, h⟩ | ⟨c, hc, h⟩)
    · exact ⟨m, Nat.lt_succ_of_lt hm, c, hc, h⟩
    · exact ⟨n, Nat.lt_succ_self n, c, hc, h⟩

/-- The flag `init` is clear after sample `n` exactly when the signal is armed before
sample `n + 1`, provided it tracked the arming before sample `n`. -/
lemma trim_chan_scan_init (sig_lvl sig_min : α) (n_channels : Nat) (data : Buffers α)
    (n : Nat) (init : Bool)
    (hinit : init = false ↔ armed_before sig_lvl n_channels data n) :
    (trim_chan_scan sig_lvl sig_min n_channels data n init).1 = false
      ↔ armed_before sig_lvl n_channels data (n + 1) := by
  rw [armed_before_succ, ← hinit, ← Bool.not_eq_true, trim_chan_scan_fst]
  constructor
  · intro h
    by_cases hi : init = false
    · exact Or.inl hi
    · right
      by_contra hne
      apply h
      refine ⟨by simpa using hi, fun c hc hgt => hne ⟨c, hc, hgt⟩⟩
  · rintro (hi | ⟨c, hc, hgt⟩) ⟨hi2, hall⟩
    · rw [hi] at hi2; exact absurd hi2 (by simp)
    · exact hall c hc hgt

/-- The local `silent` is set at sample `n` exactly when the sample counts as silence. -/
lemma trim_chan_scan_silent (sig_lvl sig_min : α) (n_channels : Nat) (data : Buffers α)
    (n : Nat) (init : Bool)
    (hinit : init = false ↔ armed_before sig_lvl n_channels data n) :
    (trim_chan_scan sig_lvl sig_min n_channels data n init).2 = true
      ↔ silent_at sig_lvl sig_min n_channels data n := by
  rw [trim_chan_scan_snd, hinit, silent_at]

/-- The search loop returns either `n_samples` or an index inside the buffer that is at
least `tme_min`, because the silence counter never exceeds the sample index. -/
lemma trim_search_bounds (sig_lvl sig_min : α) (tme_min n_channels n_samples : Nat)
    (data : Buffers α) (k : Nat) :
    ∀ n t init, t ≤ n → n + k = n_samples →
      trim_search sig_lvl sig_min tme_min n_channels n_samples data k n t init = n_samples
      ∨ (tme_min ≤ trim_search sig_lvl sig_min tme_min n_channels n_samples data k n t init
        ∧ trim_search sig_lvl sig_min tme_min n_channels n_samples data k n t init
            < n_samples) := by
  induction k with
  | zero => intro n t init _ _; left; rfl
  | succ k ih =>
    intro n t init ht hn
    rw [trim_search]
    by_cases hs : (trim_chan_scan sig_lvl sig_min n_channels data n init).2 = true
    · simp only [hs, if_true]
      by_cases hbreak : t + 1 > tme_min
      · simp only [hbreak, if_true]
        right
        omega
      · simp only [hbreak, if_false]
        exact ih (n + 1) (t + 1) _ (by omega) (by omega)
    · simp only [hs]
      exact ih (n + 1) 0 _ (by omega) (by omega)

/-- The search loop stops at the last sample of the earliest window of `tme_min + 1`
consecutive samples of silence. -/
lemma trim_search_finds_run (sig_lvl sig_min : α) (tme_min n_channels n_samples : Nat)
    (data : Buffers α) (s : Nat) (hrun : s + tme_min < n_samples)
    (hsil : ∀ i, s ≤ i → i ≤ s + tme_min → silent_at sig_lvl sig_min n_channels data i)
    (hfirst : ∀ s2, s2 < s →
      ∃ i, s2 ≤ i ∧ i ≤ s2 + tme_min ∧ ¬ silent_at sig_lvl sig_min n_channels data i)
    (k : Nat) :
    ∀ n t init, n + k = n_samples →
      (init = false ↔ armed_before sig_lvl n_channels data n) →
      n ≤ s + tme_min → n ≤ s + t → t ≤ n → t ≤ tme_min →
      (∀ i, n - t ≤ i → i < n → silent_at sig_lvl sig_min n_channels data i) →
      trim_search sig_lvl sig_min tme_min n_channels n_samples data k n t init
        = s + tme_min := by
  induction k with
  | zero => intro n t init hn _ hle _ _ _ _; omega
  | succ k ih =>
    intro n t init hn hinit hle hst htn htw hprev
    rw [trim_search]
    have hnext := trim_chan_scan_init sig_lvl sig_min n_channels data n init hinit
    have hsilent := trim_chan_scan_silent sig_lvl sig_min n_channels data n init hinit
    by_cases hs : (trim_chan_scan sig_lvl sig_min n_channels data n init).2 = true
    · have hsn := hsilent.mp hs
      simp only [hs, if_true]
      by_cases hbreak : t + 1 > tme_min
      · simp only [hbreak, if_true]
        have htw2 : t = tme_min := by omega
        have hge : s ≤ n - tme_min := by
          by_contra hlt
          obtain ⟨i, hi1, hi2, hi3⟩ := hfirst (n - tme_min) (by omega)
          apply hi3
          by_cases hin : i < n
          · exact hprev i (by omega) hin
          · have : i = n := by omega
            rw [this]; exact hsn
        omega
      · simp only [hbreak, if_false]
        refine ih (n + 1) (t + 1) _ (by omega) hnext (by omega) (by omega) (by omega)
          (by omega) ?_
        intro i hi1 hi2
        by_cases hin : i < n
        · exact hprev i (by omega) hin
        · have : i = n := by omega
          rw [this]; exact hsn
    · have hnot : ¬ silent_at sig_lvl sig_min n_channels data n := fun h => hs (hsilent.mpr h)
      have hlt : n < s := by
        by_contra hge
        exact hnot (hsil n (by omega) hle)
      simp only [hs]
      refine ih (n + 1) 0 _ (by omega) hnext (by omega) (by omega) (by omega) (by omega) ?_
      intro i hi1 hi2
      omega

/-- The value of `trim_end` when its precondition `n_samples > rate / 20` holds. -/
lemma trim_end_eq (fl : α → α) (sig_lvl sig_min : α) (n_channels rate n_samples : Nat)
    (data : Buffers α) (hn : n_samples > rate / 20) :
    trim_end fl sig_lvl sig_min n_channels rate n_samples data
      = some (trim_search sig_lvl sig_min (rate / 20) n_channels n_samples data n_samples 0 0 true,
          fun c i =>
            if c < n_channels
                ∧ trim_search sig_lvl sig_min (rate / 20) n_channels n_samples data
                    n_samples 0 0 true ≤ i
                ∧ i < n_samples then 0
            else if c < n_channels
                ∧ trim_search sig_lvl sig_min (rate / 20) n_channels n_samples data
                    n_samples 0 0 true - rate / 20 ≤ i
                ∧ i < trim_search sig_lvl sig_min (rate / 20) n_channels n_samples data
                    n_samples 0 0 true - rate / 20 + rate / 20 then
              fl (data c i * fl (1 - fl (fl ((i - (trim_search sig_lvl sig_min (rate / 20)
                n_channels n_samples data n_samples 0 0 true - rate / 20) : Nat) : α)
                  / fl ((rate / 20 : Nat) : α))))
            else data c i) := by
  have hb := trim_search_bounds sig_lvl sig_min (rate / 20) n_channels n_samples data
    n_samples 0 0 true (le_refl 0) (by omega)
  have hc1 : trim_search sig_lvl sig_min (rate / 20) n_channels n_samples data
      n_samples 0 0 true ≥ rate / 20 := by
    rcases hb with h | h
    · omega
    · exact h.1
  simp only [trim_end, hn, hc1, not_true_eq_false, if_false]

end TrimLemmas

section TrimTheorems

variable {α : Type} [LinearOrderedField α]

/-- C5 (as stated, refuted): at `rate = 40` the window is `W = 2` samples. A unit impulse
at sample `0` arms the detector, and samples `1` and `2` are a run of `W` quiet samples
that starts at index `1`; `trim_end` returns `3`, not the start `1` of the run. -/
theorem trim_end_run_start_counterexample :
    |impulse_input 0 0| > level_m20dBFS
    ∧ (∀ i, 1 ≤ i → i < 6 → quiet_at level_m60dBFS 1 impulse_input i)
    ∧ (trim_end f32_rne level_m20dBFS level_m60dBFS 1 40 6 impulse_input).map Prod.fst = some 3
    ∧ (trim_end f32_rne level_m20dBFS level_m60dBFS 1 40 6 impulse_input).map Prod.fst ≠ some 1 := by
  have harm : |impulse_input 0 0| > level_m20dBFS := by
    norm_num [impulse_input, level_m20dBFS]
  have hq : ∀ i, 1 ≤ i → quiet_at level_m60dBFS 1 impulse_input i := by
    intro i hi c _
    have : i ≠ 0 := by omega
    simp only [impulse_input, this, if_false, abs_zero, level_m60dBFS]
    norm_num
  have hres : (trim_end f32_rne level_m20dBFS level_m60dBFS 1 40 6 impulse_input).map Prod.fst
      = some 3 := by
    rw [trim_end_eq _ _ _ _ _ _ _ (by decide)]
    simp only [Option.map_some']
    congr 1
    refine trim_search_finds_run level_m20dBFS level_m60dBFS (40 / 20) 1 6 impulse_input 1
      (by decide) ?_ ?_ 6 0 0 true (by decide) ?_ (by decide) (by decide) (by decide)
      (by decide) ?_
    · intro i hi _
      exact ⟨⟨0, by omega, 0, by omega, harm⟩, hq i hi⟩
    · intro s2 hs2
      refine ⟨0, by omega, by omega, ?_⟩
      rintro ⟨⟨m, hm, _⟩, _⟩
      omega
    · constructor
      · intro h; exact absurd h (by simp)
      · rintro ⟨m, hm, _⟩; omega
    · intro i _ hi; omega
  refine ⟨harm, fun i hi _ => hq i hi, hres, ?_⟩
  rw [hres]
  decide

/-- C5 (amended): if `s` starts the earliest window of `W + 1` consecutive samples of
silence, `W = rate / 20` (every sample of the window has the signal armed before it and no
channel above `sig_min`), and the window lies inside the buffer, then `trim_end` returns
`s + W`: the cut falls `W` samples after the start of the silence run. This holds whatever
the rounding `fl` of the fade arithmetic is. -/
theorem trim_end_cut_position (fl : α → α) (sig_lvl sig_min : α)
    (n_channels rate n_samples : Nat) (data : Buffers α) (s : Nat)
    (hrun : s + rate / 20 < n_samples)
    (hsil : ∀ i, s ≤ i → i ≤ s + rate / 20 → silent_at sig_lvl sig_min n_channels data i)
    (hfirst : ∀ s2, s2 < s →
      ∃ i, s2 ≤ i ∧ i ≤ s2 + rate / 20 ∧ ¬ silent_at sig_lvl sig_min n_channels data i) :
    (trim_end fl sig_lvl sig_min n_channels rate n_samples data).map Prod.fst
      = some (s + rate / 20) := by
  rw [trim_end_eq _ _ _ _ _ _ _ (by omega)]
  simp only [Option.map_some']
  congr 1
  refine trim_search_finds_run sig_lvl sig_min (rate / 20) n_channels n_samples data s
    hrun hsil hfirst n_samples 0 0 true (by omega) ?_ (by omega) (by omega) (by omega)
    (by omega) ?_
  · constructor
    · intro h; exact absurd h (by simp)
    · rintro ⟨m, hm, _⟩; omega
  · intro i _ hi; omega

/-- C5 (amended), at a concrete input: at `rate = 44100` (`W = 2205`) an impulse at
sample `0` followed by silence is cut at index `1 + 2205`. -/
theorem trim_end_cut_position_witness :
    (trim_end f32_rne level_m20dBFS level_m60dBFS 2 44100 4000 impulse_input).map Prod.fst
      = some (1 + 44100 / 20) := by
  have harm : |impulse_input 0 0| > level_m20dBFS := by
    norm_num [impulse_input, level_m20dBFS]
  refine trim_end_cut_position f32_rne level_m20dBFS level_m60dBFS 2 44100 4000 impulse_input 1
    (by decide) ?_ ?_
  · intro i hi _
    refine ⟨⟨0, by omega, 0, by omega, harm⟩, fun c _ => ?_⟩
    have : i ≠ 0 := by omega
    simp only [impulse_input, this, if_false, abs_zero, level_m60dBFS]
    norm_num
  · intro s2 hs2
    refine ⟨0, by omega, by omega, ?_⟩
    rintro ⟨⟨m, hm, _⟩, _⟩
    omega

end TrimTheorems

/-! ## The capture scheduler -/

section SchedulerLemmas

variable {α : Type} [Zero α]

lemma run_blocks_nil (s : Session α) : run_blocks s [] = some s := rfl

lemma run_blocks_cons (s s1 : Session α) (out : Buffers α) (b : Block α) (bs : List (Block α))
    (h : jack_process b.n_samples b.inp s = some (s1, out)) :
    run_blocks s (b :: bs) = run_blocks s1 bs := by
  simp [run_blocks, h]

/-- Outside the state `Run` a block only zeroes the outputs. -/
lemma jack_process_not_run (n : Nat) (inp : Buffers α) (s : Session α)
    (h : s.client_state ≠ ClientState.Run) :
    jack_process n inp s = some (s, fun _ _ => 0) := by
  simp [jack_process, h]

lemma run_blocks_not_run (s : Session α) (bs : List (Block α))
    (h : s.client_state ≠ ClientState.Run) : run_blocks s bs = some s := by
  induction bs with
  | nil => rfl
  | cons b bs ih => rw [run_blocks_cons s s _ b bs (jack_process_not_run _ _ s h), ih]

lemma run_blocks_append (s : Session α) (as bs : List (Block α)) :
    run_blocks s (as ++ bs) = (run_blocks s as).bind (fun s1 => run_blocks s1 bs) := by
  induction as generalizing s with
  | nil => simp [run_blocks]
  | cons a as ih =>
    simp only [List.cons_append, run_blocks]
    cases jack_process a.n_samples a.inp s with
    | none => simp
    | some r => simp [ih]

omit [Zero α] in
lemma blocks_total_cons (b : Block α) (bs : List (Block α)) :
    blocks_total (b :: bs) = b.n_samples + blocks_total bs := by
  simp [blocks_total]

/-- One block of the single-pass policy, when the cursor does not overflow. -/
lemma jack_process_single (n : Nat) (inp : Buffers α) (s : Session α)
    (hmode : s.true_stereo = false) (hch : s.n_inputs = s.n_ir)
    (hrun : s.client_state = ClientState.Run) (hovf : s.proc_pos + n < 4294967296) :
    ∃ s1 out, jack_process n inp s = some (s1, out)
      ∧ s1.true_stereo = false ∧ s1.n_inputs = s1.n_ir ∧ s1.irrec_len = s.irrec_len
      ∧ s1.proc_pos = s.proc_pos + n
      ∧ (s.proc_pos + n > s.irrec_len → s1.client_state = ClientState.Exit)
      ∧ (s.proc_pos + n ≤ s.irrec_len → s1.client_state = ClientState.Run)
      ∧ (∀ slot i, s.irrec_len ≤ i → s1.ir slot i = s.ir slot i) := by
  have hu : u32_add s.proc_pos n = s.proc_pos + n := Nat.mod_eq_of_lt hovf
  have hframe : ∀ slot i, s.irrec_len ≤ i →
      (if s.proc_pos < s.irrec_len then fun slot i =>
          if slot < s.n_ir ∧ s.proc_pos ≤ i
              ∧ i < s.proc_pos + if s.proc_pos + n < s.irrec_len then n
                  else s.irrec_len - s.proc_pos then
            inp slot (i - s.proc_pos)
          else s.ir slot i
        else s.ir) slot i = s.ir slot i := by
    intro slot i hi
    by_cases hp : s.proc_pos < s.irrec_len
    · by_cases hq : s.proc_pos + n < s.irrec_len
      · have : ¬ (i < s.proc_pos + n) := by omega
        simp [hp, hq, this]
      · have : ¬ (i < s.proc_pos + (s.irrec_len - s.proc_pos)) := by omega
        simp [hp, hq, this]
    · simp [hp]
  by_cases hexit : s.proc_pos + n > s.irrec_len
  · cases h : jack_process n inp s with
    | none =>
      simp [jack_process, process_single_pass, hrun, hmode, hch, hu, hexit] at h
    | some r =>
      obtain ⟨s1, out⟩ := r
      refine ⟨s1, out, rfl, ?_⟩
      simp only [jack_process, process_single_pass, hrun, hmode, hch, hu, hexit,
        ne_eq, not_true_eq_false, if_false, if_true, Bool.false_eq_true,
        Option.some.injEq, Prod.mk.injEq] at h
      obtain ⟨rfl, rfl⟩ := h
      exact ⟨rfl, rfl, rfl, rfl, fun _ => rfl, fun hle => absurd hle (by omega), hframe⟩
  · cases h : jack_process n inp s with
    | none =>
      simp [jack_process, process_single_pass, hrun, hmode, hch, hu, hexit] at h
    | some r =>
      obtain ⟨s1, out⟩ := r
      refine ⟨s1, out, rfl, ?_⟩
      simp only [jack_process, process_single_pass, hrun, hmode, hch, hu, hexit,
        ne_eq, not_true_eq_false, if_false, if_true, Bool.false_eq_true,
        Option.some.injEq, Prod.mk.injEq] at h
      obtain ⟨rfl, rfl⟩ := h
      exact ⟨rfl, rfl, rfl, rfl, fun hgt => absurd hgt hexit, fun _ => rfl, hframe⟩

/-- The ceiling of `L / B` is `L / B + 1` when `B` does not divide `L`. -/
lemma ceil_div_of_not_dvd (L B : Nat) (hB : 0 < B) (hdiv : ¬ B ∣ L) :
    (L + B - 1) / B = L / B + 1 := by
  have hmod : 0 < L % B := Nat.pos_of_ne_zero (fun h => hdiv (Nat.dvd_of_mod_eq_zero h))
  have hlt : L % B < B := Nat.mod_lt L hB
  have hL : B * (L / B) + L % B = L := Nat.div_add_mod L B
  have hsucc : B * (L / B + 1) = B * (L / B) + B := Nat.mul_succ B (L / B)
  have hsplit : L + B - 1 = (L % B - 1) + B * (L / B + 1) := by omega
  rw [hsplit, Nat.add_mul_div_left _ _ hB, Nat.div_eq_of_lt (by omega)]
  omega

/-- A run of the single-pass policy with constant block size `B`, started at cursor
`k * B` inside the record length. -/
lemma run_blocks_single (B : Nat) (bs : List (Block α)) :
    ∀ (s : Session α) (k : Nat),
      s.true_stereo = false → s.n_inputs = s.n_ir → s.client_state = ClientState.Run →
      s.proc_pos = k * B → k * B ≤ s.irrec_len → s.irrec_len + B < 4294967296 →
      (∀ b, b ∈ bs → b.n_samples = B) →
      ∃ s2, run_blocks s bs = some s2
        ∧ ((k + bs.length) * B ≤ s.irrec_len → s2.client_state = ClientState.Run)
        ∧ (s.irrec_len < (k + bs.length) * B → s2.client_state = ClientState.Exit)
        ∧ (∀ slot i, s.irrec_len ≤ i → s2.ir slot i = s.ir slot i) := by
  induction bs with
  | nil =>
    intro s k _ _ hrun _ hk _ _
    refine ⟨s, rfl, fun _ => hrun, fun h => ?_, fun _ _ _ => rfl⟩
    simp only [List.length_nil, Nat.add_zero] at h
    omega
  | cons b bs ih =>
    intro s k hmode hch hrun hpos hk hovf hbs
    have hb : b.n_samples = B := hbs b (List.mem_cons_self b bs)
    have hsucc : (k + 1) * B = k * B + B := Nat.succ_mul k B
    have hlen : (k + (b :: bs).length) * B = (k + 1 + bs.length) * B := by
      simp only [List.length_cons]
      congr 1
      omega
    have hmono : (k + 1) * B ≤ (k + 1 + bs.length) * B :=
      Nat.mul_le_mul_right B (Nat.le_add_right _ _)
    obtain ⟨s1, out, hstep, hmode1, hch1, hlen1, hpos1, hexit1, hrun1, hframe1⟩ :=
      jack_process_single b.n_samples b.inp s hmode hch hrun (by omega)
    rw [run_blocks_cons s s1 out b bs hstep, hlen]
    by_cases hend : s.proc_pos + b.n_samples > s.irrec_len
    · have hst : s1.client_state = ClientState.Exit := hexit1 hend
      have hnr : s1.client_state ≠ ClientState.Run := by rw [hst]; decide
      refine ⟨s1, run_blocks_not_run s1 bs hnr, fun h => ?_, fun _ => hst, hframe1⟩
      omega
    · obtain ⟨s2, hrun2, hA, hB2, hC⟩ :=
        ih s1 (k + 1) hmode1 hch1 (hrun1 (by omega)) (by omega) (by omega) (by omega)
          (fun x hx => hbs x (List.mem_cons_of_mem b hx))
      rw [hlen1] at hA hB2 hC
      exact ⟨s2, hrun2, hA, hB2, fun slot i hi => by rw [hC slot i hi, hframe1 slot i hi]⟩

/-- One block of pass 0 of the multi-pass policy (`true_stereo_pass > 0`), when
neither the cursor nor the pass length overflows. -/
lemma jack_process_pass0 (n : Nat) (inp : Buffers α) (s : Session α)
    (hmode : s.true_stereo = true)
    (hcfg : s.n_outputs = 2 ∧ s.n_inputs = 2 ∧ s.n_ir = 4)
    (hrun : s.client_state = ClientState.Run) (hgap : 0 < s.true_stereo_pass)
    (hovf1 : s.proc_pos + n < 4294967296)
    (hovf2 : s.irrec_len + s.true_stereo_pass < 4294967296) :
    ∃ s1 out, jack_process n inp s = some (s1, out)
      ∧ (s1.true_stereo = true ∧ (s1.n_outputs = 2 ∧ s1.n_inputs = 2 ∧ s1.n_ir = 4)
        ∧ s1.irrec_len = s.irrec_len ∧ s1.sweep_len = s.sweep_len
        ∧ s1.sweep_sin = s.sweep_sin)
      ∧ (s.proc_pos + n ≤ s.irrec_len + s.true_stereo_pass →
          s1.client_state = ClientState.Run ∧ s1.true_stereo_pass = s.true_stereo_pass
            ∧ s1.proc_pos = s.proc_pos + n)
      ∧ (s.proc_pos + n > s.irrec_len + s.true_stereo_pass →
          s1.client_state = ClientState.Run ∧ s1.true_stereo_pass = 0 ∧ s1.proc_pos = 0)
      ∧ (∀ k, out 1 k = 0)
      ∧ (∀ k, k < n → s.proc_pos + k < s.sweep_len → out 0 k = s.sweep_sin (s.proc_pos + k))
      ∧ (∀ k, s.sweep_len ≤ s.proc_pos + k → out 0 k = 0)
      ∧ (∀ c, c < 2 → ∀ i, s.proc_pos ≤ i → i < s.proc_pos + n → i < s.irrec_len →
          s1.ir c i = inp c (i - s.proc_pos))
      ∧ (∀ slot i, (2 ≤ slot ∨ i < s.proc_pos ∨ s.proc_pos + n ≤ i ∨ s.irrec_len ≤ i) →
          s1.ir slot i = s.ir slot i) := by
  have hu1 : u32_add s.proc_pos n = s.proc_pos + n := Nat.mod_eq_of_lt hovf1
  have hu2 : u32_add s.irrec_len s.true_stereo_pass = s.irrec_len + s.true_stereo_pass :=
    Nat.mod_eq_of_lt hovf2
  have hfp : decide (s.true_stereo_pass > 0) = true := by simpa using hgap
  obtain ⟨hc1, hc2, hc3⟩ := hcfg
  by_cases hend : s.proc_pos + n > s.irrec_len + s.true_stereo_pass
  all_goals
    cases h : jack_process n inp s with
    | none =>
      simp [jack_process, process_multi_pass, hrun, hmode, hc1, hc2, hc3, hu1, hu2, hend, hfp]
        at h
    | some r =>
      obtain ⟨s1, out⟩ := r
      refine ⟨s1, out, rfl, ?_⟩
      simp only [jack_process, process_multi_pass, hrun, hmode, hc1, hc2, hc3, hu1, hu2, hend,
        hfp, ne_eq, not_true_eq_false, if_false, if_true, and_self,
        Option.some.injEq, Prod.mk.injEq] at h
      obtain ⟨rfl, rfl⟩ := h
      refine ⟨⟨rfl, ⟨rfl, rfl, rfl⟩, rfl, rfl, rfl⟩, ?_, ?_, ?_, ?_, ?_, ?_, ?_⟩
      · intro h2
        first
          | exact ⟨rfl, rfl, rfl⟩
          | omega
      · intro h2
        first
          | exact ⟨rfl, rfl, rfl⟩
          | omega
      · intro k
        by_cases hp : s.proc_pos < s.sweep_len <;> simp [hp]
      · intro k hk hks
        have hp : s.proc_pos < s.sweep_len := by omega
        by_cases hq : s.proc_pos + n < s.sweep_len
        · simp [hp, hq, hk]
        · have : k < s.sweep_len - s.proc_pos := by omega
          simp [hp, hq, this]
      · intro k hks
        by_cases hp : s.proc_pos < s.sweep_len
        · by_cases hq : s.proc_pos + n < s.sweep_len
          · have : ¬ k < n := by omega
            simp [hp, hq, this]
          · have : ¬ k < s.sweep_len - s.proc_pos := by omega
            simp [hp, hq, this]
        · simp [hp]
      · intro c hc i hi1 hi2 hi3
        have hp : s.proc_pos < s.irrec_len := by omega
        by_cases hq : s.proc_pos + n < s.irrec_len
        · simp [hp, hq, hc, hi1, hi2]
        · have : i < s.proc_pos + (s.irrec_len - s.proc_pos) := by omega
          simp [hp, hq, hc, hi1, this]
      · intro slot i hor
        by_cases hp : s.proc_pos < s.irrec_len
        · by_cases hq : s.proc_pos + n < s.irrec_len
          · have : ¬ (slot < 2 ∧ s.proc_pos ≤ i ∧ i < s.proc_pos + n) := by omega
            simp [hp, hq, this]
          · have : ¬ (slot < 2 ∧ s.proc_pos ≤ i
                ∧ i < s.proc_pos + (s.irrec_len - s.proc_pos)) := by omega
            simp [hp, hq, this]
        · simp [hp]

/-- One block of pass 1 of the multi-pass policy (`true_stereo_pass = 0`), when the
cursor does not overflow. -/
lemma jack_process_pass1 (n : Nat) (inp : Buffers α) (s : Session α)
    (hmode : s.true_stereo = true)
    (hcfg : s.n_outputs = 2 ∧ s.n_inputs = 2 ∧ s.n_ir = 4)
    (hrun : s.client_state = ClientState.Run) (hgap : s.true_stereo_pass = 0)
    (hovf1 : s.proc_pos + n < 4294967296) (hovf2 : s.irrec_len < 4294967296) :
    ∃ s1 out, jack_process n inp s = some (s1, out)
      ∧ (s1.true_stereo = true ∧ (s1.n_outputs = 2 ∧ s1.n_inputs = 2 ∧ s1.n_ir = 4)
        ∧ s1.irrec_len = s.irrec_len ∧ s1.sweep_len = s.sweep_len
        ∧ s1.sweep_sin = s.sweep_sin)
      ∧ (s1.true_stereo_pass = 0 ∧ s1.proc_pos = s.proc_pos + n)
      ∧ (s.proc_pos + n ≤ s.irrec_len → s1.client_state = ClientState.Run)
      ∧ (s.proc_pos + n > s.irrec_len → s1.client_state = ClientState.Exit)
      ∧ (∀ k, out 0 k = 0)
      ∧ (∀ k, k < n → s.proc_pos + k < s.sweep_len → out 1 k = s.sweep_sin (s.proc_pos + k))
      ∧ (∀ k, s.sweep_len ≤ s.proc_pos + k → out 1 k = 0)
      ∧ (∀ c, c < 2 → ∀ i, s.proc_pos ≤ i → i < s.proc_pos + n → i < s.irrec_len →
          s1.ir (2 + c) i = inp c (i - s.proc_pos))
      ∧ (∀ slot i, (slot < 2 ∨ 4 ≤ slot ∨ i < s.proc_pos ∨ s.proc_pos + n ≤ i
            ∨ s.irrec_len ≤ i) →
          s1.ir slot i = s.ir slot i) := by
  have hu1 : u32_add s.proc_pos n = s.proc_pos + n := Nat.mod_eq_of_lt hovf1
  have hu2 : u32_add s.irrec_len 0 = s.irrec_len := Nat.mod_eq_of_lt hovf2
  obtain ⟨hc1, hc2, hc3⟩ := hcfg
  by_cases hend : s.proc_pos + n > s.irrec_len
  all_goals
    cases h : jack_process n inp s with
    | none =>
      simp [jack_process, process_multi_pass, hrun, hmode, hc1, hc2, hc3, hu1, hu2, hend, hgap]
        at h
    | some r =>
      obtain ⟨s1, out⟩ := r
      refine ⟨s1, out, rfl, ?_⟩
      simp only [jack_process, process_multi_pass, hrun, hmode, hc1, hc2, hc3, hu1, hu2, hend,
        hgap, ne_eq, not_true_eq_false, if_false, if_true, and_self, gt_iff_lt, lt_self_iff_false,
        decide_False, Bool.false_eq_true, Option.some.injEq, Prod.mk.injEq] at h
      obtain ⟨rfl, rfl⟩ := h
      refine ⟨⟨rfl, ⟨rfl, rfl, rfl⟩, rfl, rfl, rfl⟩, ⟨rfl, rfl⟩, ?_, ?_, ?_, ?_, ?_, ?_, ?_⟩
      · intro h2
        first
          | rfl
          | omega
      · intro h2
        first
          | rfl
          | omega
      · intro k
        by_cases hp : s.proc_pos < s.sweep_len <;> simp [hp]
      · intro k hk hks
        have hp : s.proc_pos < s.sweep_len := by omega
        by_cases hq : s.proc_pos + n < s.sweep_len
        · simp [hp, hq, hk]
        · have : k < s.sweep_len - s.proc_pos := by omega
          simp [hp, hq, this]
      · intro k hks
        by_cases hp : s.proc_pos < s.sweep_len
        · by_cases hq : s.proc_pos + n < s.sweep_len
          · have : ¬ k < n := by omega
            simp [hp, hq, this]
          · have : ¬ k < s.sweep_len - s.proc_pos := by omega
            simp [hp, hq, this]
        · simp [hp]
      · intro c hc i hi1 hi2 hi3
        have hp : s.proc_pos < s.irrec_len := by omega
        have hc4 : 2 + c < 2 + 2 := by omega
        by_cases hq : s.proc_pos + n < s.irrec_len
        · simp [hp, hq, hc4, hi1, hi2]
        · have : i < s.proc_pos + (s.irrec_len - s.proc_pos) := by omega
          simp [hp, hq, hc4, hi1, this]
      · intro slot i hor
        by_cases hp : s.proc_pos < s.irrec_len
        · by_cases hq : s.proc_pos + n < s.irrec_len
          · have : ¬ ((2 ≤ slot ∧ slot < 2 + 2) ∧ s.proc_pos ≤ i ∧ i < s.proc_pos + n) := by
              omega
            simp [hp, hq, this]
          · have : ¬ ((2 ≤ slot ∧ slot < 2 + 2) ∧ s.proc_pos ≤ i
                ∧ i < s.proc_pos + (s.irrec_len - s.proc_pos)) := by omega
            simp [hp, hq, this]
        · simp [hp]

/-- Pass 0 stays active, and the cursor counts the samples, while the cursor does not
exceed `irrec_len + true_stereo_pass`. -/
lemma run_blocks_pass0 (s0 : Session α) (bs : List (Block α)) :
    ∀ (s : Session α), true_stereo_config s0 s → s.client_state = ClientState.Run →
      0 < s.true_stereo_pass →
      (∀ b, b ∈ bs → s0.irrec_len + s.true_stereo_pass + b.n_samples < 4294967296) →
      s.proc_pos + blocks_total bs ≤ s0.irrec_len + s.true_stereo_pass →
      ∃ s2, run_blocks s bs = some s2 ∧ true_stereo_config s0 s2
        ∧ s2.client_state = ClientState.Run ∧ s2.true_stereo_pass = s.true_stereo_pass
        ∧ s2.proc_pos = s.proc_pos + blocks_total bs := by
  induction bs with
  | nil =>
    intro s hc hrun _ _ _
    exact ⟨s, rfl, hc, hrun, rfl, by simp [blocks_total]⟩
  | cons b bs ih =>
    intro s hc hrun hgap hovf htot
    rw [blocks_total_cons] at htot
    obtain ⟨hm, hp, hL, hSL, hSS⟩ := hc
    have hb := hovf b (List.mem_cons_self b bs)
    obtain ⟨s1, out, hstep, ⟨hm1, hp1, hL1, hSL1, hSS1⟩, hstay, _⟩ :=
      jack_process_pass0 b.n_samples b.inp s hm hp hrun hgap (by omega) (by omega)
    obtain ⟨hrun1, hgap1, hpos1⟩ := hstay (by omega)
    obtain ⟨s2, hrun2, hc2, hst2, hg2, hpos2⟩ :=
      ih s1 ⟨hm1, hp1, hL1.trans hL, hSL1.trans hSL, hSS1.trans hSS⟩ hrun1 (by omega)
        (fun x hx => by rw [hgap1]; exact hovf x (List.mem_cons_of_mem b hx)) (by omega)
    refine ⟨s2, ?_, hc2, hst2, hg2.trans hgap1, ?_⟩
    · rw [run_blocks_cons s s1 out b bs hstep, hrun2]
    · rw [hpos2, hpos1, blocks_total_cons]; omega

/-- Pass 1 stays active, and the cursor counts the samples, while the cursor does not
exceed `irrec_len`. -/
lemma run_blocks_pass1_run (s0 : Session α) (bs : List (Block α)) :
    ∀ (s : Session α), true_stereo_config s0 s → s.client_state = ClientState.Run →
      s.true_stereo_pass = 0 →
      (∀ b, b ∈ bs → s0.irrec_len + b.n_samples < 4294967296) →
      s.proc_pos + blocks_total bs ≤ s0.irrec_len →
      ∃ s2, run_blocks s bs = some s2 ∧ true_stereo_config s0 s2
        ∧ s2.client_state = ClientState.Run ∧ s2.true_stereo_pass = 0
        ∧ s2.proc_pos = s.proc_pos + blocks_total bs := by
  induction bs with
  | nil =>
    intro s hc hrun hgap _ _
    exact ⟨s, rfl, hc, hrun, hgap, by simp [blocks_total]⟩
  | cons b bs ih =>
    intro s hc hrun hgap hovf htot
    rw [blocks_total_cons] at htot
    obtain ⟨hm, hp, hL, hSL, hSS⟩ := hc
    have hb := hovf b (List.mem_cons_self b bs)
    obtain ⟨s1, out, hstep, ⟨hm1, hp1, hL1, hSL1, hSS1⟩, ⟨hgap1, hpos1⟩, hstay, _⟩ :=
      jack_process_pass1 b.n_samples b.inp s hm hp hrun hgap (by omega) (by omega)
    obtain ⟨s2, hrun2, hc2, hst2, hg2, hpos2⟩ :=
      ih s1 ⟨hm1, hp1, hL1.trans hL, hSL1.trans hSL, hSS1.trans hSS⟩ (hstay (by omega)) hgap1
        (fun x hx => hovf x (List.mem_cons_of_mem b hx)) (by omega)
    refine ⟨s2, ?_, hc2, hst2, hg2, ?_⟩
    · rw [run_blocks_cons s s1 out b bs hstep, hrun2]
    · rw [hpos2, hpos1, blocks_total_cons]; omega

/-- Pass 1 ends the session as soon as its cursor exceeds `irrec_len`. -/
lemma run_blocks_pass1_exit (s0 : Session α) (bs : List (Block α)) :
    ∀ (s : Session α), true_stereo_config s0 s → s.client_state = ClientState.Run →
      s.true_stereo_pass = 0 → s.proc_pos ≤ s0.irrec_len →
      (∀ b, b ∈ bs → s0.irrec_len + b.n_samples < 4294967296) →
      s0.irrec_len < s.proc_pos + blocks_total bs →
      ∃ s2, run_blocks s bs = some s2 ∧ s2.client_state = ClientState.Exit := by
  induction bs with
  | nil =>
    intro s _ _ _ hle _ htot
    simp only [blocks_total, List.map_nil, List.sum_nil] at htot
    omega
  | cons b bs ih =>
    intro s hc hrun hgap hle hovf htot
    rw [blocks_total_cons] at htot
    obtain ⟨hm, hp, hL, hSL, hSS⟩ := hc
    have hb := hovf b (List.mem_cons_self b bs)
    obtain ⟨s1, out, hstep, ⟨hm1, hp1, hL1, hSL1, hSS1⟩, ⟨hgap1, hpos1⟩, hstay, hexit, _⟩ :=
      jack_process_pass1 b.n_samples b.inp s hm hp hrun hgap (by omega) (by omega)
    rw [run_blocks_cons s s1 out b bs hstep]
    by_cases hend : s.proc_pos + b.n_samples > s.irrec_len
    · have hst : s1.client_state = ClientState.Exit := hexit hend
      exact ⟨s1, run_blocks_not_run s1 bs (by rw [hst]; decide), hst⟩
    · exact ih s1 ⟨hm1, hp1, hL1.trans hL, hSL1.trans hSL, hSS1.trans hSS⟩ (hstay (by omega))
        hgap1 (by omega) (fun x hx => hovf x (List.mem_cons_of_mem b hx)) (by omega)

/-- Every state a true-stereo session reaches is in one of the three phases and keeps
the configuration. -/
lemma run_blocks_phase (s0 : Session α) (G : Nat) (hG : 0 < G) (bs : List (Block α)) :
    ∀ (s : Session α), true_stereo_config s0 s → true_stereo_phase G s →
      (∀ b, b ∈ bs → s0.irrec_len + G + b.n_samples < 4294967296) →
      ∃ s2, run_blocks s bs = some s2 ∧ true_stereo_config s0 s2
        ∧ true_stereo_phase G s2 := by
  induction bs with
  | nil => intro s hc hph _; exact ⟨s, rfl, hc, hph⟩
  | cons b bs ih =>
    intro s hc hph hovf
    have hb := hovf b (List.mem_cons_self b bs)
    have hrest : ∀ x, x ∈ bs → s0.irrec_len + G + x.n_samples < 4294967296 :=
      fun x hx => hovf x (List.mem_cons_of_mem b hx)
    obtain ⟨hm, hp, hL, hSL, hSS⟩ := hc
    rcases hph with ⟨hrun, hgap, hpos⟩ | ⟨hrun, hgap, hpos⟩ | hexit
    · obtain ⟨s1, out, hstep, ⟨hm1, hp1, hL1, hSL1, hSS1⟩, hstay, hend, _⟩ :=
        jack_process_pass0 b.n_samples b.inp s hm hp hrun (by omega) (by omega) (by omega)
      rw [run_blocks_cons s s1 out b bs hstep]
      refine ih s1 ⟨hm1, hp1, hL1.trans hL, hSL1.trans hSL, hSS1.trans hSS⟩ ?_ hrest
      by_cases hcase : s.proc_pos + b.n_samples ≤ s.irrec_len + s.true_stereo_pass
      · obtain ⟨h1, h2, h3⟩ := hstay hcase
        exact Or.inl ⟨h1, h2.trans hgap, by rw [h3, hL1]; omega⟩
      · obtain ⟨h1, h2, h3⟩ := hend (by omega)
        exact Or.inr (Or.inl ⟨h1, h2, by rw [h3]; omega⟩)
    · obtain ⟨s1, out, hstep, ⟨hm1, hp1, hL1, hSL1, hSS1⟩, ⟨hgap1, hpos1⟩, hstay, hend, _⟩ :=
        jack_process_pass1 b.n_samples b.inp s hm hp hrun hgap (by omega) (by omega)
      rw [run_blocks_cons s s1 out b bs hstep]
      refine ih s1 ⟨hm1, hp1, hL1.trans hL, hSL1.trans hSL, hSS1.trans hSS⟩ ?_ hrest
      by_cases hcase : s.proc_pos + b.n_samples ≤ s.irrec_len
      · exact Or.inr (Or.inl ⟨hstay hcase, hgap1, by rw [hpos1, hL1]; exact hcase⟩)
      · exact Or.inr (Or.inr (hend (by omega)))
    · have hnr : s.client_state ≠ ClientState.Run := by rw [hexit]; decide
      rw [run_blocks_not_run s (b :: bs) hnr]
      exact ⟨s, rfl, ⟨hm, hp, hL, hSL, hSS⟩, Or.inr (Or.inr hexit)⟩

end SchedulerLemmas

section SchedulerTheorems

variable {α : Type} [Zero α]

/-- C7: a single-pass session started in `Run` at cursor `0` and driven with a constant
block size `B > 0` that does not divide `irrec_len` is still in `Run` after each of the
first `⌈irrec_len / B⌉ - 1` blocks and in `Exit` after block `⌈irrec_len / B⌉` (and
from then on); no capture buffer changes at an index `≥ irrec_len`. The cursor is a
`uint32_t`, so `irrec_len + B` is assumed to fit 32 bits. -/
theorem single_pass_block_count (s0 : Session α) (B : Nat) (bs : List (Block α))
    (hB : 0 < B) (hdiv : ¬ B ∣ s0.irrec_len) (hovf : s0.irrec_len + B < 4294967296)
    (hmode : s0.true_stereo = false) (hch : s0.n_inputs = s0.n_ir)
    (hrun : s0.client_state = ClientState.Run) (hpos : s0.proc_pos = 0)
    (hbs : ∀ b, b ∈ bs → b.n_samples = B) :
    ∃ s, run_blocks s0 bs = some s
      ∧ (bs.length < (s0.irrec_len + B - 1) / B → s.client_state = ClientState.Run)
      ∧ ((s0.irrec_len + B - 1) / B ≤ bs.length → s.client_state = ClientState.Exit)
      ∧ (∀ slot i, s0.irrec_len ≤ i → s.ir slot i = s0.ir slot i) := by
  obtain ⟨s, hs, hA, hB2, hC⟩ :=
    run_blocks_single B bs s0 0 hmode hch hrun (by simpa using hpos) (by simp) hovf hbs
  rw [Nat.zero_add] at hA hB2
  have hceil := ceil_div_of_not_dvd s0.irrec_len B hB hdiv
  have hiff : bs.length ≤ s0.irrec_len / B ↔ bs.length * B ≤ s0.irrec_len :=
    Nat.le_div_iff_mul_le hB
  refine ⟨s, hs, fun h => hA (hiff.mp (by omega)), fun h => hB2 ?_, hC⟩
  by_contra hcon
  have : bs.length ≤ s0.irrec_len / B := hiff.mpr (by omega)
  omega

/-- C7, at a concrete input: record length `7`, block size `3`; `⌈7 / 3⌉ = 3` blocks. -/
theorem single_pass_block_count_witness :
    ∃ s, run_blocks (test_session 1 1 1 false 1 10 7) [test_block 3, test_block 3, test_block 3]
        = some s
      ∧ (3 < (7 + 3 - 1) / 3 → s.client_state = ClientState.Run)
      ∧ ((7 + 3 - 1) / 3 ≤ 3 → s.client_state = ClientState.Exit)
      ∧ (∀ slot i, 7 ≤ i → s.ir slot i = (test_session 1 1 1 false 1 10 7).ir slot i) :=
  single_pass_block_count (test_session 1 1 1 false 1 10 7) 3
    [test_block 3, test_block 3, test_block 3] (by decide) (by decide) (by decide) rfl rfl rfl
    rfl (by decide)

/-- C8: in a true-stereo session (2 inputs, 2 outputs, 4 IR slots, silence gap
`true_stereo_pass > 0`) started in `Run` at cursor `0`, after any sequence of blocks `bs`
and for any next block `b`: as long as the samples processed do not exceed
`irrec_len + true_stereo_pass`, pass 0 is still active and its cursor counts them (pass 1
has not begun); while pass 0 is active, output port 1 stays silent, output port 0 carries
the sweep, and input port `c` is recorded into IR slot `c` (slots 2 and 3 untouched); while
pass 1 is active, output port 0 stays silent, output port 1 carries the sweep, and input
port `c` is recorded into IR slot `2 + c` (slots 0 and 1 untouched). Cursor arithmetic is
assumed not to overflow 32 bits. -/
theorem multi_pass_ordering_and_channel_map (s0 : Session α) (bs : List (Block α))
    (b : Block α)
    (hmode : s0.true_stereo = true)
    (hcfg : s0.n_outputs = 2 ∧ s0.n_inputs = 2 ∧ s0.n_ir = 4)
    (hgap : 0 < s0.true_stereo_pass)
    (hrun : s0.client_state = ClientState.Run) (hpos : s0.proc_pos = 0)
    (hovf : ∀ x, x ∈ b :: bs →
      s0.irrec_len + s0.true_stereo_pass + x.n_samples < 4294967296) :
    ∃ s s1 out, run_blocks s0 bs = some s
      ∧ jack_process b.n_samples b.inp s = some (s1, out)
      ∧ (blocks_total bs ≤ s0.irrec_len + s0.true_stereo_pass →
          s.client_state = ClientState.Run ∧ s.true_stereo_pass = s0.true_stereo_pass
            ∧ s.proc_pos = blocks_total bs)
      ∧ (s.client_state = ClientState.Run → 0 < s.true_stereo_pass →
          (∀ k, out 1 k = 0)
          ∧ (∀ k, k < b.n_samples → s.proc_pos + k < s0.sweep_len →
              out 0 k = s0.sweep_sin (s.proc_pos + k))
          ∧ (∀ c, c < 2 → ∀ i, s.proc_pos ≤ i → i < s.proc_pos + b.n_samples →
              i < s0.irrec_len → s1.ir c i = b.inp c (i - s.proc_pos))
          ∧ (∀ slot i, 2 ≤ slot → s1.ir slot i = s.ir slot i))
      ∧ (s.client_state = ClientState.Run → s.true_stereo_pass = 0 →
          (∀ k, out 0 k = 0)
          ∧ (∀ k, k < b.n_samples → s.proc_pos + k < s0.sweep_len →
              out 1 k = s0.sweep_sin (s.proc_pos + k))
          ∧ (∀ c, c < 2 → ∀ i, s.proc_pos ≤ i → i < s.proc_pos + b.n_samples →
              i < s0.irrec_len → s1.ir (2 + c) i = b.inp c (i - s.proc_pos))
          ∧ (∀ slot i, slot < 2 → s1.ir slot i = s.ir slot i)) := by
  have hc0 : true_stereo_config s0 s0 := ⟨hmode, hcfg, rfl, rfl, rfl⟩
  have hb := hovf b (List.mem_cons_self b bs)
  have hrest : ∀ x, x ∈ bs → s0.irrec_len + s0.true_stereo_pass + x.n_samples < 4294967296 :=
    fun x hx => hovf x (List.mem_cons_of_mem b hx)
  obtain ⟨s, hs, ⟨hm, hp, hL, hSL, hSS⟩, hph⟩ :=
    run_blocks_phase s0 s0.true_stereo_pass hgap bs s0 hc0
      (Or.inl ⟨hrun, rfl, by omega⟩) hrest
  have hord : blocks_total bs ≤ s0.irrec_len + s0.true_stereo_pass →
      s.client_state = ClientState.Run ∧ s.true_stereo_pass = s0.true_stereo_pass
        ∧ s.proc_pos = blocks_total bs := by
    intro htot
    obtain ⟨s2, hs2, _, h1, h2, h3⟩ :=
      run_blocks_pass0 s0 bs s0 hc0 hrun hgap hrest (by omega)
    rw [hs] at hs2
    cases hs2
    exact ⟨h1, h2, by rw [h3, hpos]; omega⟩
  rcases hph with ⟨hrun1, hgap1, hpos1⟩ | ⟨hrun1, hgap1, hpos1⟩ | hexit
  · obtain ⟨s1, out, hstep, _, _, _, ho1, ho2, _, hi1, hi2⟩ :=
      jack_process_pass0 b.n_samples b.inp s hm hp hrun1 (by omega) (by omega) (by omega)
    refine ⟨s, s1, out, hs, hstep, hord, fun _ _ => ⟨ho1, ?_, ?_, fun slot i h => ?_⟩,
      fun _ h0 => ?_⟩
    · intro k hk hks; rw [← hSS]; exact ho2 k hk (by omega)
    · intro c hc i h1 h2 h3; exact hi1 c hc i h1 h2 (by omega)
    · exact hi2 slot i (Or.inl h)
    · omega
  · obtain ⟨s1, out, hstep, _, _, _, _, ho1, ho2, _, hi1, hi2⟩ :=
      jack_process_pass1 b.n_samples b.inp s hm hp hrun1 hgap1 (by omega) (by omega)
    refine ⟨s, s1, out, hs, hstep, hord, fun _ h0 => ?_,
      fun _ _ => ⟨ho1, ?_, ?_, fun slot i h => ?_⟩⟩
    · omega
    · intro k hk hks; rw [← hSS]; exact ho2 k hk (by omega)
    · intro c hc i h1 h2 h3; exact hi1 c hc i h1 h2 (by omega)
    · exact hi2 slot i (Or.inl h)
  · have hnr : s.client_state ≠ ClientState.Run := by rw [hexit]; decide
    exact ⟨s, s, fun _ _ => 0, hs, jack_process_not_run _ _ s hnr, hord,
      fun h _ => absurd h hnr, fun h _ => absurd h hnr⟩

/-- C8, at a concrete input: record length `4`, gap `3`, one block of `8` samples ends
pass 0; the next block of `5` samples is played on port 1 and recorded into slots 2, 3. -/
theorem multi_pass_ordering_and_channel_map_witness :
    ∃ s s1 out, run_blocks (test_session 4 2 2 true 3 10 4) [test_block 8] = some s
      ∧ jack_process (test_block 5).n_samples (test_block 5).inp s = some (s1, out)
      ∧ (blocks_total [test_block 8] ≤ 4 + 3 →
          s.client_state = ClientState.Run ∧ s.true_stereo_pass = 3
            ∧ s.proc_pos = blocks_total [test_block 8])
      ∧ (s.client_state = ClientState.Run → 0 < s.true_stereo_pass →
          (∀ k, out 1 k = 0)
          ∧ (∀ k, k < 5 → s.proc_pos + k < 10 →
              out 0 k = (test_session 4 2 2 true 3 10 4).sweep_sin (s.proc_pos + k))
          ∧ (∀ c, c < 2 → ∀ i, s.proc_pos ≤ i → i < s.proc_pos + 5 →
              i < 4 → s1.ir c i = (test_block 5).inp c (i - s.proc_pos))
          ∧ (∀ slot i, 2 ≤ slot → s1.ir slot i = s.ir slot i))
      ∧ (s.client_state = ClientState.Run → s.true_stereo_pass = 0 →
          (∀ k, out 0 k = 0)
          ∧ (∀ k, k < 5 → s.proc_pos + k < 10 →
              out 1 k = (test_session 4 2 2 true 3 10 4).sweep_sin (s.proc_pos + k))
          ∧ (∀ c, c < 2 → ∀ i, s.proc_pos ≤ i → i < s.proc_pos + 5 →
              i < 4 → s1.ir (2 + c) i = (test_block 5).inp c (i - s.proc_pos))
          ∧ (∀ slot i, slot < 2 → s1.ir slot i = s.ir slot i)) :=
  multi_pass_ordering_and_channel_map (test_session 4 2 2 true 3 10 4) [test_block 8]
    (test_block 5) rfl (by decide) (by decide) rfl rfl (by decide)

/-- C9 (as stated, refuted): record length `4`, silence gap `3`. A block of `8` samples
ends pass 0; a block of `5` samples then ends the session although the cursor of pass 1,
`5`, does not exceed `4 + 3`. -/
theorem multi_pass_second_pass_counterexample :
    (run_blocks (test_session 4 2 2 true 3 10 4) [test_block 8]).map
        (fun s => (s.client_state, s.true_stereo_pass, s.proc_pos))
      = some (ClientState.Run, 0, 0)
    ∧ (run_blocks (test_session 4 2 2 true 3 10 4) [test_block 8, test_block 5]).map
        (fun s => (s.client_state, s.true_stereo_pass, s.proc_pos))
      = some (ClientState.Exit, 0, 5)
    ∧ ¬ (5 > (test_session 4 2 2 true 3 10 4).irrec_len
          + (test_session 4 2 2 true 3 10 4).true_stereo_pass) := by
  decide

/-- C9 (amended): in a true-stereo session with silence gap `G = true_stereo_pass > 0`
started in `Run` at cursor `0`, pass 0 stays active while its cursor does not exceed
`irrec_len + G` and ends (cursor reset to `0`, `true_stereo_pass` cleared) at the first
block `last` after which the cursor exceeds `irrec_len + G`; pass 1 then stays active
while its cursor does not exceed `irrec_len`, and the session reaches `Exit` at the first
block of pass 1 after which its cursor exceeds `irrec_len` (no gap follows pass 1). -/
theorem multi_pass_pass_duration (s0 : Session α) (bs0 : List (Block α)) (last : Block α)
    (bs1 : List (Block α))
    (hmode : s0.true_stereo = true)
    (hcfg : s0.n_outputs = 2 ∧ s0.n_inputs = 2 ∧ s0.n_ir = 4)
    (hgap : 0 < s0.true_stereo_pass)
    (hrun : s0.client_state = ClientState.Run) (hpos : s0.proc_pos = 0)
    (hovf : ∀ x, x ∈ bs0 ++ last :: bs1 →
      s0.irrec_len + s0.true_stereo_pass + x.n_samples < 4294967296)
    (h0 : blocks_total bs0 ≤ s0.irrec_len + s0.true_stereo_pass)
    (h1 : s0.irrec_len + s0.true_stereo_pass < blocks_total bs0 + last.n_samples) :
    (∃ s, run_blocks s0 bs0 = some s ∧ s.client_state = ClientState.Run
        ∧ s.true_stereo_pass = s0.true_stereo_pass ∧ s.proc_pos = blocks_total bs0)
    ∧ (∃ s, run_blocks s0 (bs0 ++ [last]) = some s ∧ s.client_state = ClientState.Run
        ∧ s.true_stereo_pass = 0 ∧ s.proc_pos = 0)
    ∧ (blocks_total bs1 ≤ s0.irrec_len →
        ∃ s, run_blocks s0 (bs0 ++ last :: bs1) = some s
          ∧ s.client_state = ClientState.Run ∧ s.true_stereo_pass = 0
          ∧ s.proc_pos = blocks_total bs1)
    ∧ (s0.irrec_len < blocks_total bs1 →
        ∃ s, run_blocks s0 (bs0 ++ last :: bs1) = some s
          ∧ s.client_state = ClientState.Exit) := by
  have hc0 : true_stereo_config s0 s0 := ⟨hmode, hcfg, rfl, rfl, rfl⟩
  have hov0 : ∀ x, x ∈ bs0 → s0.irrec_len + s0.true_stereo_pass + x.n_samples < 4294967296 :=
    fun x hx => hovf x (List.mem_append_left _ hx)
  have hovl := hovf last (List.mem_append_right _ (List.mem_cons_self last bs1))
  have hov1 : ∀ x, x ∈ bs1 → s0.irrec_len + x.n_samples < 4294967296 := by
    intro x hx
    have := hovf x (List.mem_append_right _ (List.mem_cons_of_mem last hx))
    omega
  obtain ⟨s, hs, ⟨hm, hp, hL, hSL, hSS⟩, hst, hg, hpp⟩ :=
    run_blocks_pass0 s0 bs0 s0 hc0 hrun hgap hov0 (by omega)
  obtain ⟨s1, out, hstep, ⟨hm1, hp1, hL1, hSL1, hSS1⟩, _, hend, _⟩ :=
    jack_process_pass0 last.n_samples last.inp s hm hp hst (by omega) (by omega) (by omega)
  obtain ⟨hst1, hg1, hpp1⟩ := hend (by omega)
  have hc1 : true_stereo_config s0 s1 :=
    ⟨hm1, hp1, hL1.trans hL, hSL1.trans hSL, hSS1.trans hSS⟩
  have hlast : run_blocks s0 (bs0 ++ [last]) = some s1 := by
    rw [run_blocks_append, hs, Option.some_bind, run_blocks_cons s s1 out last [] hstep]
    rfl
  have hall : run_blocks s0 (bs0 ++ last :: bs1) = run_blocks s1 bs1 := by
    rw [run_blocks_append, hs, Option.some_bind, run_blocks_cons s s1 out last bs1 hstep]
  refine ⟨⟨s, hs, hst, hg, by rw [hpp, hpos]; omega⟩, ⟨s1, hlast, hst1, hg1, hpp1⟩, ?_, ?_⟩
  · intro htot
    obtain ⟨s2, hs2, _, hst2, hg2, hpp2⟩ :=
      run_blocks_pass1_run s0 bs1 s1 hc1 hst1 hg1 hov1 (by omega)
    exact ⟨s2, by rw [hall, hs2], hst2, hg2, by rw [hpp2, hpp1]; omega⟩
  · intro htot
    obtain ⟨s2, hs2, hst2⟩ :=
      run_blocks_pass1_exit s0 bs1 s1 hc1 hst1 hg1 (by omega) hov1 (by omega)
    exact ⟨s2, by rw [hall, hs2], hst2⟩

/-- C9 (amended), at a concrete input: record length `4`, gap `3`; pass 0 is the blocks
`[4, 3, 1]`, pass 1 the blocks `[2, 2, 1]`. -/
theorem multi_pass_pass_duration_witness :
    (∃ s, run_blocks (test_session 4 2 2 true 3 10 4) [test_block 4, test_block 3]
          = some s ∧ s.client_state = ClientState.Run
        ∧ s.true_stereo_pass = 3 ∧ s.proc_pos = blocks_total [test_block 4, test_block 3])
    ∧ (∃ s, run_blocks (test_session 4 2 2 true 3 10 4)
          ([test_block 4, test_block 3] ++ [test_block 1]) = some s
        ∧ s.client_state = ClientState.Run ∧ s.true_stereo_pass = 0 ∧ s.proc_pos = 0)
    ∧ (blocks_total [test_block 2, test_block 2, test_block 1] ≤ 4 →
        ∃ s, run_blocks (test_session 4 2 2 true 3 10 4)
            ([test_block 4, test_block 3]
              ++ test_block 1 :: [test_block 2, test_block 2, test_block 1]) = some s
          ∧ s.client_state = ClientState.Run ∧ s.true_stereo_pass = 0
          ∧ s.proc_pos = blocks_total [test_block 2, test_block 2, test_block 1])
    ∧ (4 < blocks_total [test_block 2, test_block 2, test_block 1] →
        ∃ s, run_blocks (test_session 4 2 2 true 3 10 4)
            ([test_block 4, test_block 3]
              ++ test_block 1 :: [test_block 2, test_block 2, test_block 1]) = some s
          ∧ s.client_state = ClientState.Exit) :=
  multi_pass_pass_duration (test_session 4 2 2 true 3 10 4) [test_block 4, test_block 3]
    (test_block 1) [test_block 2, test_block 2, test_block 1] rfl (by decide) (by decide)
    rfl rfl (by decide) (by decide) (by decide)

end SchedulerTheorems

/-! ## Latency compensation and the final window -/

section LatencyTheorems

/-- C3 (as stated, refuted): without an override and with a measured round-trip latency
of `3`, the effective latency is `3`, not `max 0 (3 - 4) = 0`. -/
theorem effective_latency_clamp_counterexample :
    effective_latency 0 3 = 3 ∧ effective_latency 0 3 ≠ max 0 (3 - 4) := by
  decide

/-- C3 (amended): the effective latency is the override `L` when `L > 0`; otherwise it is
`R - 4` when the measured latency `R` is at least `4` (and `R - 4` fits an `int`), and `R`
itself when `R ≤ 3`. In particular no override with `R = 10` gives `6`, and the override
`3` gives `3` for every `R`. -/
theorem effective_latency_cases (L : Int) (R : Nat) :
    (0 < L → effective_latency L R = L)
    ∧ (L ≤ 0 → 4 ≤ R → R < 2147483652 → effective_latency L R = (R : Int) - 4)
    ∧ (L ≤ 0 → R ≤ 3 → effective_latency L R = R)
    ∧ effective_latency 0 10 = 6
    ∧ effective_latency 3 R = 3 := by
  refine ⟨?_, ?_, ?_, by decide, by simp [effective_latency]⟩
  · intro h
    simp [effective_latency, h]
  · intro hL h4 hR
    have h1 : ¬ L > 0 := not_lt.mpr hL
    have h2 : R > 3 := by omega
    simp only [effective_latency, h1, h2, if_false, if_true, to_i32]
    have h3 : (R - 4) % 4294967296 = R - 4 := Nat.mod_eq_of_lt (by omega)
    rw [h3]
    have h4 : R - 4 < 2147483648 := by omega
    simp only [h4, if_true]
    omega
  · intro hL hR
    have h1 : ¬ L > 0 := not_lt.mpr hL
    have h2 : ¬ R > 3 := by omega
    simp only [effective_latency, h1, h2, if_false, to_i32]
    have h3 : R % 4294967296 = R := Nat.mod_eq_of_lt (by omega)
    rw [h3]
    have h4 : R < 2147483648 := by omega
    simp only [h4, if_true]

/-- C3 (amended), at concrete inputs: every case of the selection is reached. -/
theorem effective_latency_cases_witness :
    effective_latency 7 100 = 7 ∧ effective_latency 0 100 = 96 ∧ effective_latency (-1) 2 = 2 :=
  ⟨(effective_latency_cases 7 100).1 (by decide),
   (effective_latency_cases 0 100).2.1 (by decide) (by decide) (by decide),
   (effective_latency_cases (-1) 2).2.2.1 (by decide) (by decide)⟩

/-- The too-short check compares with `<`: below the window start nothing is written and
`rv` stays `-1`; from the window start on, `sf_write` is called with the window. -/
lemma write_window_cases (trimed_len sweep_len : Nat) (lat : Int) (sf_rv : Int)
    (hlat : 0 ≤ lat) (hsum : sweep_len + lat < 4294967296) (htrim : trimed_len < 4294967296) :
    (trimed_len < sweep_len + lat →
      write_window trimed_len sweep_len lat sf_rv
        = { sf_write_call := none, too_short := true, rv := -1 })
    ∧ (sweep_len + lat ≤ trimed_len →
      write_window trimed_len sweep_len lat sf_rv
        = { sf_write_call := some (sweep_len + lat.toNat, trimed_len - (sweep_len + lat.toNat)),
            too_short := false, rv := sf_rv }) := by
  have hu : to_u32 (sweep_len + lat) = sweep_len + lat.toNat := by
    unfold to_u32
    rw [Int.emod_eq_of_lt (by omega) hsum]
    omega
  constructor
  · intro h
    have h1 : trimed_len < sweep_len + lat.toNat := by omega
    simp [write_window, hu, h1]
  · intro h
    have h1 : ¬ trimed_len < sweep_len + lat.toNat := by omega
    have h2 : to_u32 ((trimed_len : Int) - ((sweep_len + lat.toNat : Nat) : Int))
        = trimed_len - (sweep_len + lat.toNat) := by
      unfold to_u32
      rw [Int.emod_eq_of_lt (by omega) (by omega)]
      omega
    simp only [write_window, hu, h1, if_false, h2]

/-- C4 (evaluated at the boundary): with `trimed_len = sweep_len + lat` (here
`450000 = 446733 + 3267`) the run is not reported as too short: `sf_write` is called
with start offset `450000` and `0` frames, and `rv` becomes the result of `sf_write`. -/
theorem write_window_empty_range_is_written :
    write_window 450000 446733 3267 0
      = { sf_write_call := some (450000, 0), too_short := false, rv := 0 } := by
  decide

end LatencyTheorems

/-! ## Sweep length -/

section SweepLemmas

lemma round_half_even_le (y : ℚ) : (round_half_even y : ℚ) ≤ y + 1 / 2 := by
  have h1 : (⌊y⌋ : ℚ) ≤ y := Int.floor_le y
  unfold round_half_even
  split_ifs with ha hb hc
  · linarith
  · push_cast; linarith
  · linarith
  · push_cast; linarith

lemma le_round_half_even (y : ℚ) (M : Int) (h : (M : ℚ) - 1 / 2 < y) :
    M ≤ round_half_even y := by
  have h1 : (⌊y⌋ : ℚ) ≤ y := Int.floor_le y
  have h2 : y < (⌊y⌋ : ℚ) + 1 := Int.lt_floor_add_one y
  unfold round_half_even
  split_ifs with ha hb hc
  · have : (M : ℚ) < (⌊y⌋ : ℚ) + 1 := by linarith
    have : M < ⌊y⌋ + 1 := by exact_mod_cast this
    omega
  · have : (M : ℚ) < (⌊y⌋ : ℚ) + 2 := by linarith
    have : M < ⌊y⌋ + 2 := by exact_mod_cast this
    omega
  · have : (M : ℚ) < (⌊y⌋ : ℚ) + 1 := by linarith
    have : M < ⌊y⌋ + 1 := by exact_mod_cast this
    omega
  · have : (M : ℚ) < (⌊y⌋ : ℚ) + 2 := by linarith
    have : M < ⌊y⌋ + 2 := by exact_mod_cast this
    omega

lemma round_half_even_intCast (M : Int) : round_half_even (M : ℚ) = M := by
  unfold round_half_even
  simp

lemma f32_round_pos_eq (x : ℚ) (hx : 0 < x) :
    f32_round x
      = (round_half_even (x / (2 : ℚ) ^ (Int.log 2 x - 23)) : ℚ) * (2 : ℚ) ^ (Int.log 2 x - 23) := by
  unfold f32_round
  rw [if_neg (ne_of_gt hx), abs_of_pos hx]

lemma f32_ulp_half (e : Int) : (2 : ℚ) ^ (e - 23) = 2 * (2 : ℚ) ^ (e - 24) := by
  have h : e - 23 = 1 + (e - 24) := by omega
  rw [h, zpow_add₀ (by norm_num : (2 : ℚ) ≠ 0), zpow_one]

/-- Rounding to single precision moves a positive value up by at most half a unit in
the last place. -/
lemma f32_round_le (x : ℚ) (hx : 0 < x) :
    f32_round x ≤ x + (2 : ℚ) ^ (Int.log 2 x - 24) := by
  have hq : (0 : ℚ) < (2 : ℚ) ^ (Int.log 2 x - 23) := zpow_pos (by norm_num) _
  have hr := round_half_even_le (x / (2 : ℚ) ^ (Int.log 2 x - 23))
  rw [f32_round_pos_eq x hx]
  calc (round_half_even (x / (2 : ℚ) ^ (Int.log 2 x - 23)) : ℚ) * (2 : ℚ) ^ (Int.log 2 x - 23)
      ≤ (x / (2 : ℚ) ^ (Int.log 2 x - 23) + 1 / 2) * (2 : ℚ) ^ (Int.log 2 x - 23) :=
        mul_le_mul_of_nonneg_right hr (le_of_lt hq)
    _ = x + (2 : ℚ) ^ (Int.log 2 x - 24) := by
        rw [add_mul, div_mul_cancel₀ x (ne_of_gt hq), f32_ulp_half]
        ring

lemma int_log_two_lt (x : ℚ) (hx : 0 < x) (k : Int) (h : x < (2 : ℚ) ^ k) :
    Int.log 2 x < k := by
  have := (Int.lt_zpow_iff_log_lt (b := 2) (by norm_num) (x := k) hx).mp (by simpa using h)
  exact this

lemma int_log_two_ge (x : ℚ) (hx : 0 < x) (k : Int) (h : (2 : ℚ) ^ k ≤ x) :
    k ≤ Int.log 2 x := by
  have := (Int.zpow_le_iff_le_log (b := 2) (by norm_num) (x := k) hx).mp (by simpa using h)
  exact this

/-- Rounding to single precision does not fall below a natural number that the value
reaches to within half a unit in the last place. -/
lemma le_f32_round (x : ℚ) (hx : 0 < x) (hx24 : x < 2 ^ 24) (N : Nat)
    (h : (N : ℚ) - (2 : ℚ) ^ (Int.log 2 x - 24) < x) :
    (N : ℚ) ≤ f32_round x := by
  have he : Int.log 2 x < 24 := int_log_two_lt x hx 24 (by norm_num at hx24 ⊢; exact hx24)
  have hq : (0 : ℚ) < (2 : ℚ) ^ (Int.log 2 x - 23) := zpow_pos (by norm_num) _
  obtain ⟨k, hk⟩ : ∃ k : Nat, (k : Int) = 23 - Int.log 2 x := ⟨(23 - Int.log 2 x).toNat, by omega⟩
  have hinv : (2 : ℚ) ^ (Int.log 2 x - 23) * (2 : ℚ) ^ k = 1 := by
    rw [← zpow_natCast, ← zpow_add₀ (by norm_num : (2 : ℚ) ≠ 0), hk]
    simp
  have hM : ((N * 2 ^ k : Int) : ℚ) = (N : ℚ) * (2 : ℚ) ^ k := by push_cast; ring
  have hdiv : x / (2 : ℚ) ^ (Int.log 2 x - 23) = x * (2 : ℚ) ^ k := by
    rw [div_eq_iff (ne_of_gt hq), mul_assoc, mul_comm ((2 : ℚ) ^ k), hinv, mul_one]
  have hpk : (0 : ℚ) < (2 : ℚ) ^ k := pow_pos (by norm_num) _
  have hhalf : (2 : ℚ) ^ (Int.log 2 x - 24) * (2 : ℚ) ^ k = 1 / 2 := by
    have := f32_ulp_half (Int.log 2 x)
    rw [this] at hinv
    linarith
  have hlow : ((N * 2 ^ k : Int) : ℚ) - 1 / 2 < x / (2 : ℚ) ^ (Int.log 2 x - 23) := by
    rw [hM, hdiv, ← hhalf, ← sub_mul]
    exact mul_lt_mul_of_pos_right h hpk
  have hr := le_round_half_even _ _ hlow
  have hr2 : ((N * 2 ^ k : Int) : ℚ)
      ≤ (round_half_even (x / (2 : ℚ) ^ (Int.log 2 x - 23)) : ℚ) := by exact_mod_cast hr
  rw [f32_round_pos_eq x hx]
  calc (N : ℚ) = ((N * 2 ^ k : Int) : ℚ) * (2 : ℚ) ^ (Int.log 2 x - 23) := by
        rw [hM, mul_assoc, mul_comm ((2 : ℚ) ^ k), hinv, mul_one]
    _ ≤ _ := mul_le_mul_of_nonneg_right hr2 (le_of_lt hq)

/-- Natural numbers below `2 ^ 24` are single-precision values. -/
lemma f32_round_natCast (m : Nat) (hm24 : m < 2 ^ 24) : f32_round (m : ℚ) = m := by
  rcases Nat.eq_zero_or_pos m with h0 | hpos
  · subst h0; simp [f32_round]
  · have hx : (0 : ℚ) < (m : ℚ) := by exact_mod_cast hpos
    have hx24 : (m : ℚ) < 2 ^ 24 := by exact_mod_cast hm24
    have he : Int.log 2 (m : ℚ) < 24 :=
      int_log_two_lt _ hx 24 (by norm_num at hx24 ⊢; exact hx24)
    have hq : (0 : ℚ) < (2 : ℚ) ^ (Int.log 2 (m : ℚ) - 23) := zpow_pos (by norm_num) _
    obtain ⟨k, hk⟩ : ∃ k : Nat, (k : Int) = 23 - Int.log 2 (m : ℚ) :=
      ⟨(23 - Int.log 2 (m : ℚ)).toNat, by omega⟩
    have hinv : (2 : ℚ) ^ (Int.log 2 (m : ℚ) - 23) * (2 : ℚ) ^ k = 1 := by
      rw [← zpow_natCast, ← zpow_add₀ (by norm_num : (2 : ℚ) ≠ 0), hk]
      simp
    have hdiv : (m : ℚ) / (2 : ℚ) ^ (Int.log 2 (m : ℚ) - 23) = ((m * 2 ^ k : Int) : ℚ) := by
      rw [div_eq_iff (ne_of_gt hq)]
      push_cast
      rw [mul_assoc, mul_comm ((2 : ℚ) ^ k), hinv, mul_one]
    rw [f32_round_pos_eq _ hx, hdiv, round_half_even_intCast]
    push_cast
    rw [mul_assoc, mul_comm ((2 : ℚ) ^ k), hinv, mul_one]

lemma f32_to_int_eq (f : ℚ) (N : Nat) (h1 : (N : ℚ) ≤ f) (h2 : f < (N : ℚ) + 1) :
    f32_to_int f = (N : Int) := by
  have h0 : (0 : ℚ) ≤ f := le_trans (Nat.cast_nonneg N) h1
  unfold f32_to_int
  rw [if_pos h0, Int.floor_eq_iff]
  exact ⟨by exact_mod_cast h1, by exact_mod_cast h2⟩

/-- The pre-roll segment: `rate * 0.1f` converted to `int` is `rate / 10` rounded down. -/
lemma gensweep_pre (r : Nat) (h1 : 44100 ≤ r) (h2 : r ≤ 96000) :
    f32_to_int (f32_round ((r : ℚ) * f32_0_1)) = ((r / 10 : Nat) : Int) := by
  have hr1 : (44100 : ℚ) ≤ (r : ℚ) := by exact_mod_cast h1
  have hr2 : (r : ℚ) ≤ 96000 := by exact_mod_cast h2
  have hN1 : (10 : ℚ) * ((r / 10 : Nat) : ℚ) ≤ (r : ℚ) := by
    have : 10 * (r / 10) ≤ r := Nat.mul_div_le r 10
    exact_mod_cast this
  have hN2 : (r : ℚ) ≤ 10 * ((r / 10 : Nat) : ℚ) + 9 := by
    have : r ≤ 10 * (r / 10) + 9 := by omega
    exact_mod_cast this
  have hlo : (r : ℚ) / 10 ≤ (r : ℚ) * f32_0_1 := by unfold f32_0_1; linarith
  have hhi : (r : ℚ) * f32_0_1 ≤ (r : ℚ) / 10 + 1 / 5000 := by unfold f32_0_1; linarith
  have hx : (0 : ℚ) < (r : ℚ) * f32_0_1 := by linarith
  have hx14 : (r : ℚ) * f32_0_1 < (2 : ℚ) ^ (14 : Int) := by
    norm_num; linarith
  have he : Int.log 2 ((r : ℚ) * f32_0_1) < 14 := int_log_two_lt _ hx 14 hx14
  have hulp : (2 : ℚ) ^ (Int.log 2 ((r : ℚ) * f32_0_1) - 24) ≤ (2 : ℚ) ^ (-11 : Int) :=
    zpow_le_zpow_right₀ (by norm_num) (by omega)
  have hulp0 : (0 : ℚ) < (2 : ℚ) ^ (Int.log 2 ((r : ℚ) * f32_0_1) - 24) :=
    zpow_pos (by norm_num) _
  have hval : (2 : ℚ) ^ (-11 : Int) = 1 / 2048 := by norm_num
  rw [hval] at hulp
  apply f32_to_int_eq
  · apply le_f32_round _ hx (by linarith)
    linarith
  · have := f32_round_le _ hx
    linarith

/-- The fade-out segment: `rate * 0.03f` converted to `int` is `3 * rate / 100` rounded
down. -/
lemma gensweep_end (r : Nat) (h1 : 44100 ≤ r) (h2 : r ≤ 96000) :
    f32_to_int (f32_round ((r : ℚ) * f32_0_03)) = ((3 * r / 100 : Nat) : Int) := by
  have hr1 : (44100 : ℚ) ≤ (r : ℚ) := by exact_mod_cast h1
  have hr2 : (r : ℚ) ≤ 96000 := by exact_mod_cast h2
  have hN1 : (100 : ℚ) * ((3 * r / 100 : Nat) : ℚ) ≤ 3 * (r : ℚ) := by
    have : 100 * (3 * r / 100) ≤ 3 * r := Nat.mul_div_le (3 * r) 100
    exact_mod_cast this
  have hN2 : 3 * (r : ℚ) ≤ 100 * ((3 * r / 100 : Nat) : ℚ) + 99 := by
    have : 3 * r ≤ 100 * (3 * r / 100) + 99 := by omega
    exact_mod_cast this
  have hlo : 3 * (r : ℚ) / 100 - (r : ℚ) * (9 / 13421772800) ≤ (r : ℚ) * f32_0_03 := by
    unfold f32_0_03; linarith
  have hhi : (r : ℚ) * f32_0_03 ≤ 3 * (r : ℚ) / 100 := by unfold f32_0_03; linarith
  have hx : (0 : ℚ) < (r : ℚ) * f32_0_03 := by linarith
  have hx12 : (r : ℚ) * f32_0_03 < (2 : ℚ) ^ (12 : Int) := by
    norm_num; linarith
  have he : Int.log 2 ((r : ℚ) * f32_0_03) < 12 := int_log_two_lt _ hx 12 hx12
  have hulp : (2 : ℚ) ^ (Int.log 2 ((r : ℚ) * f32_0_03) - 24) ≤ (2 : ℚ) ^ (-13 : Int) :=
    zpow_le_zpow_right₀ (by norm_num) (by omega)
  have hval : (2 : ℚ) ^ (-13 : Int) = 1 / 8192 := by norm_num
  rw [hval] at hulp
  apply f32_to_int_eq
  · apply le_f32_round _ hx (by linarith)
    by_cases hbig : r ≤ 80000
    · have hrb : (r : ℚ) ≤ 80000 := by exact_mod_cast hbig
      have h10 : (2 : ℚ) ^ (10 : Int) ≤ (r : ℚ) * f32_0_03 := by
        norm_num; linarith
      have he10 := int_log_two_ge _ hx 10 h10
      have hlow : (2 : ℚ) ^ (-14 : Int) ≤ (2 : ℚ) ^ (Int.log 2 ((r : ℚ) * f32_0_03) - 24) :=
        zpow_le_zpow_right₀ (by norm_num) (by omega)
      have hv : (2 : ℚ) ^ (-14 : Int) = 1 / 16384 := by norm_num
      rw [hv] at hlow
      linarith
    · have hrb : (80000 : ℚ) ≤ (r : ℚ) := by
        have : 80000 ≤ r := by omega
        exact_mod_cast this
      have h11 : (2 : ℚ) ^ (11 : Int) ≤ (r : ℚ) * f32_0_03 := by
        norm_num; linarith
      have he11 := int_log_two_ge _ hx 11 h11
      have hlow : (2 : ℚ) ^ (-13 : Int) ≤ (2 : ℚ) ^ (Int.log 2 ((r : ℚ) * f32_0_03) - 24) :=
        zpow_le_zpow_right₀ (by norm_num) (by omega)
      rw [hval] at hlow
      linarith
  · have := f32_round_le _ hx
    linarith

/-- The sweep segment for a whole number of seconds: the product is exact. -/
lemma gensweep_sin (r d : Nat) (h : d * r < 2 ^ 24) :
    f32_to_int (f32_round ((r : ℚ) * (d : ℚ))) = ((d * r : Nat) : Int) := by
  have hcast : (r : ℚ) * (d : ℚ) = ((d * r : Nat) : ℚ) := by push_cast; ring
  rw [hcast, f32_round_natCast _ h]
  exact f32_to_int_eq _ _ (le_refl _) (by linarith)

/-- The length `gensweep` returns for a valid rate and a whole number of seconds. -/
lemma gensweep_length_eq (fmin fmax : ℚ) (r d : Nat) (h1 : 44100 ≤ r) (h2 : r ≤ 96000)
    (hd : d * r < 2 ^ 24) :
    gensweep fmin fmax (d : ℚ) (r : ℚ) = r / 10 + d * r + 3 * r / 100 := by
  unfold gensweep
  simp only []
  rw [gensweep_pre r h1 h2, gensweep_sin r d hd, gensweep_end r h1 h2]
  unfold to_u32
  have hsum : (((r / 10 : Nat) : Int) + ((d * r : Nat) : Int) + ((3 * r / 100 : Nat) : Int))
      = ((r / 10 + d * r + 3 * r / 100 : Nat) : Int) := by push_cast; ring
  rw [hsum]
  have hlt : r / 10 + d * r + 3 * r / 100 < 4294967296 := by
    have : d * r < 16777216 := by simpa using hd
    omega
  have hmod : ((r / 10 + d * r + 3 * r / 100 : Nat) : Int) % 4294967296
      = ((r / 10 + d * r + 3 * r / 100 : Nat) : Int) :=
    Int.emod_eq_of_lt (Int.natCast_nonneg _) (by exact_mod_cast hlt)
  rw [hmod, Int.toNat_natCast]

end SweepLemmas

section SweepTheorems

/-- C10 (as stated, refuted): at rate `44106` and a sweep of `10` seconds `gensweep`
returns `4410 + 441060 + 1323 = 446793`, while rounding each product to the nearest
integer gives `4411 + 441060 + 1323 = 446794`. -/
theorem gensweep_length_rounding_counterexample :
    gensweep 20 20000 10 44106 = 446793
    ∧ round ((1 / 10 : ℚ) * 44106) + round ((10 : ℚ) * 44106) + round ((3 / 100 : ℚ) * 44106)
        = 446794 := by
  constructor
  · have h := gensweep_length_eq 20 20000 44106 10 (by decide) (by decide) (by decide)
    simpa using h
  · have e1 : round ((1 / 10 : ℚ) * 44106) = 4411 := by
      rw [round_eq, Int.floor_eq_iff]; norm_num
    have e2 : round ((10 : ℚ) * 44106) = 441060 := by
      rw [round_eq, Int.floor_eq_iff]; norm_num
    have e3 : round ((3 / 100 : ℚ) * 44106) = 1323 := by
      rw [round_eq, Int.floor_eq_iff]; norm_num
    rw [e1, e2, e3]
    rfl

/-- C10 (amended): for every integer sample rate `r` with `44100 ≤ r ≤ 96000` and every
sweep duration of a whole number `d` of seconds with `d * r < 2 ^ 24`, `gensweep` returns
`⌊r / 10⌋ + d * r + ⌊3 * r / 100⌋`: each segment length is the product truncated toward
zero, not rounded to the nearest integer. -/
theorem gensweep_length_truncates (fmin fmax : ℚ) (r d : Nat) (h1 : 44100 ≤ r)
    (h2 : r ≤ 96000) (hd : d * r < 2 ^ 24) :
    gensweep fmin fmax (d : ℚ) (r : ℚ) = r / 10 + d * r + 3 * r / 100 :=
  gensweep_length_eq fmin fmax r d h1 h2 hd

/-- C10 (amended), at a concrete input: `44100` Hz and `10` seconds give `446733`. -/
theorem gensweep_length_truncates_witness :
    gensweep 20 20000 ((10 : Nat) : ℚ) ((44100 : Nat) : ℚ) = 44100 / 10 + 10 * 44100 + 3 * 44100 / 100 :=
  gensweep_length_truncates 20 20000 44100 10 (by decide) (by decide) (by decide)

end SweepTheorems

/-! ## The cursor bound -/

section CursorLemmas

variable {α : Type} [Zero α]

/-- In the single-pass policy the cursor stays within `irrec_len` while the session runs
and ends at most one block beyond it. -/
lemma run_blocks_single_cursor (Bmax : Nat) (bs : List (Block α)) :
    ∀ (s : Session α), s.true_stereo = false → s.n_inputs = s.n_ir →
      (s.client_state = ClientState.Run → s.proc_pos ≤ s.irrec_len) →
      s.proc_pos ≤ s.irrec_len + Bmax → s.irrec_len + Bmax < 4294967296 →
      (∀ b, b ∈ bs → b.n_samples ≤ Bmax) →
      ∃ s2, run_blocks s bs = some s2 ∧ s2.proc_pos ≤ s.irrec_len + Bmax := by
  induction bs with
  | nil => intro s _ _ _ hle _ _; exact ⟨s, rfl, hle⟩
  | cons b bs ih =>
    intro s hmode hch hin hle hovf hbs
    have hb := hbs b (List.mem_cons_self b bs)
    by_cases hrun : s.client_state = ClientState.Run
    · have hp := hin hrun
      obtain ⟨s1, out, hstep, hmode1, hch1, hlen1, hpos1, hexit1, hrun1, _⟩ :=
        jack_process_single b.n_samples b.inp s hmode hch hrun (by omega)
      rw [run_blocks_cons s s1 out b bs hstep]
      have hnext := ih s1 hmode1 hch1 ?_ (by omega) (by omega)
        (fun x hx => hbs x (List.mem_cons_of_mem b hx))
      · rw [hlen1] at hnext; exact hnext
      · intro hr1
        by_cases hend : s.proc_pos + b.n_samples > s.irrec_len
        · rw [hexit1 hend] at hr1; exact absurd hr1 (by decide)
        · omega
    · exact ⟨s, run_blocks_not_run s (b :: bs) hrun, hle⟩

/-- In the multi-pass policy the cursor stays within `irrec_len + true_stereo_pass`
while the session runs and ends at most one block beyond `irrec_len`. -/
lemma run_blocks_multi_cursor (s0 : Session α) (G Bmax : Nat) (bs : List (Block α)) :
    ∀ (s : Session α), true_stereo_config s0 s → s.true_stereo_pass ≤ G →
      (s.client_state = ClientState.Run → s.proc_pos ≤ s0.irrec_len + s.true_stereo_pass) →
      s.proc_pos ≤ s0.irrec_len + max G Bmax →
      s0.irrec_len + G + Bmax < 4294967296 →
      (∀ b, b ∈ bs → b.n_samples ≤ Bmax) →
      ∃ s2, run_blocks s bs = some s2 ∧ s2.proc_pos ≤ s0.irrec_len + max G Bmax := by
  induction bs with
  | nil => intro s _ _ _ hle _ _; exact ⟨s, rfl, hle⟩
  | cons b bs ih =>
    intro s hc hG hin hle hovf hbs
    have hb := hbs b (List.mem_cons_self b bs)
    have hrest : ∀ x, x ∈ bs → x.n_samples ≤ Bmax :=
      fun x hx => hbs x (List.mem_cons_of_mem b hx)
    have hmaxG : G ≤ max G Bmax := le_max_left _ _
    have hmaxB : Bmax ≤ max G Bmax := le_max_right _ _
    obtain ⟨hm, hp, hL, hSL, hSS⟩ := hc
    by_cases hrun : s.client_state = ClientState.Run
    · have hpp := hin hrun
      by_cases hgap : 0 < s.true_stereo_pass
      · obtain ⟨s1, out, hstep, ⟨hm1, hp1, hL1, hSL1, hSS1⟩, hstay, hend, _⟩ :=
          jack_process_pass0 b.n_samples b.inp s hm hp hrun hgap (by omega) (by omega)
        rw [run_blocks_cons s s1 out b bs hstep]
        have hc1 : true_stereo_config s0 s1 :=
          ⟨hm1, hp1, hL1.trans hL, hSL1.trans hSL, hSS1.trans hSS⟩
        by_cases hcase : s.proc_pos + b.n_samples ≤ s.irrec_len + s.true_stereo_pass
        · obtain ⟨_, h2, h3⟩ := hstay hcase
          exact ih s1 hc1 (by omega) (fun _ => by omega) (by omega) hovf hrest
        · obtain ⟨_, h2, h3⟩ := hend (by omega)
          exact ih s1 hc1 (by omega) (fun _ => by omega) (by omega) hovf hrest
      · have hgap0 : s.true_stereo_pass = 0 := by omega
        obtain ⟨s1, out, hstep, ⟨hm1, hp1, hL1, hSL1, hSS1⟩, ⟨h2, h3⟩, hstay, hend, _⟩ :=
          jack_process_pass1 b.n_samples b.inp s hm hp hrun hgap0 (by omega) (by omega)
        rw [run_blocks_cons s s1 out b bs hstep]
        have hc1 : true_stereo_config s0 s1 :=
          ⟨hm1, hp1, hL1.trans hL, hSL1.trans hSL, hSS1.trans hSS⟩
        refine ih s1 hc1 (by omega) ?_ (by omega) hovf hrest
        intro hr1
        by_cases hcase : s.proc_pos + b.n_samples ≤ s.irrec_len
        · omega
        · rw [hend (by omega)] at hr1; exact absurd hr1 (by decide)
    · exact ⟨s, run_blocks_not_run s (b :: bs) hrun, hle⟩

end CursorLemmas

section CursorTheorems

variable {α : Type} [Zero α]

/-- C12 (as stated, refuted): a single-pass session with `sweep_len = 10` and
`irrec_len = 7`, started in `Run` at cursor `0`, has cursor `20 > 10 + 7` after one block
of `20` samples. -/
theorem cursor_bound_counterexample :
    (run_blocks (test_session 1 1 1 false 1 10 7) [test_block 20]).map
        (fun s => (s.client_state, s.proc_pos))
      = some (ClientState.Exit, 20)
    ∧ ¬ (20 ≤ (test_session 1 1 1 false 1 10 7).sweep_len
          + (test_session 1 1 1 false 1 10 7).irrec_len) := by
  decide

/-- C12 (amended): in every state reachable from a session start at cursor `0` (in
state `Run` or any other) by a sequence of blocks whose sizes do not exceed `sweep_len`,
in the single-pass policy and in the multi-pass policy with a silence gap
`true_stereo_pass ≤ sweep_len`, the cursor is at most `sweep_len + irrec_len`. Cursor
arithmetic is assumed not to overflow 32 bits. -/
theorem cursor_bound_of_bounded_blocks (s0 : Session α) (bs : List (Block α))
    (hcfg : (s0.true_stereo = false ∧ s0.n_inputs = s0.n_ir)
      ∨ (s0.true_stereo = true ∧ (s0.n_outputs = 2 ∧ s0.n_inputs = 2 ∧ s0.n_ir = 4)
          ∧ s0.true_stereo_pass ≤ s0.sweep_len))
    (hpos : s0.proc_pos = 0)
    (hbs : ∀ b, b ∈ bs → b.n_samples ≤ s0.sweep_len)
    (hovf : s0.irrec_len + 2 * s0.sweep_len < 4294967296) :
    ∃ s, run_blocks s0 bs = some s ∧ s.proc_pos ≤ s0.sweep_len + s0.irrec_len := by
  rcases hcfg with ⟨hmode, hch⟩ | ⟨hmode, hports, hgap⟩
  · obtain ⟨s, hs, hle⟩ := run_blocks_single_cursor s0.sweep_len bs s0 hmode hch
      (fun _ => by omega) (by omega) (by omega) hbs
    exact ⟨s, hs, by omega⟩
  · obtain ⟨s, hs, hle⟩ := run_blocks_multi_cursor s0 s0.true_stereo_pass s0.sweep_len bs s0
      ⟨hmode, hports, rfl, rfl, rfl⟩ (le_refl _) (fun _ => by omega) (by omega) (by omega) hbs
    have hmax : max s0.true_stereo_pass s0.sweep_len = s0.sweep_len := max_eq_right hgap
    rw [hmax] at hle
    exact ⟨s, hs, by omega⟩

/-- C12 (amended), at concrete inputs: a single-pass and a true-stereo session with
`sweep_len = 10`, `irrec_len = 7` and blocks of at most `10` samples. -/
theorem cursor_bound_of_bounded_blocks_witness :
    (∃ s, run_blocks (test_session 1 1 1 false 1 10 7) [test_block 5, test_block 10] = some s
      ∧ s.proc_pos ≤ 10 + 7)
    ∧ (∃ s, run_blocks (test_session 4 2 2 true 3 10 7)
          [test_block 10, test_block 4, test_block 9] = some s
      ∧ s.proc_pos ≤ 10 + 7) :=
  ⟨cursor_bound_of_bounded_blocks (test_session 1 1 1 false 1 10 7)
      [test_block 5, test_block 10] (Or.inl ⟨rfl, rfl⟩) rfl (by decide) (by decide),
   cursor_bound_of_bounded_blocks (test_session 4 2 2 true 3 10 7)
      [test_block 10, test_block 4, test_block 9]
      (Or.inr ⟨rfl, by decide, by decide⟩) rfl (by decide) (by decide)⟩

end CursorTheorems

/-! ## The inverse filter -/

section InverseLemmas

variable {K : Type} [Field K]

omit [Field K] in
/-- A loop that stores `F i` at index `i` of one array and `G i` at the mirrored index
`n - i - 1` of another leaves exactly these values behind. -/
lemma foldl_update_mirror (F G : Nat → K) (n : Int) (arrays : (Nat → K) × (Nat → K)) :
    ∀ k, k ≤ n.toNat → ∀ i, i < k →
      ((List.range k).foldl
          (fun st i => (Function.update st.1 i (F i),
            Function.update st.2 (n - i - 1).toNat (G i))) arrays).1 i = F i
      ∧ ((List.range k).foldl
          (fun st i => (Function.update st.1 i (F i),
            Function.update st.2 (n - i - 1).toNat (G i))) arrays).2 (n - i - 1).toNat
          = G i := by
  intro k
  induction k with
  | zero => intro _ i hi; omega
  | succ k ih =>
    intro hk i hi
    simp only [List.range_succ, List.foldl_append, List.foldl_cons, List.foldl_nil]
    rcases Nat.lt_succ_iff_lt_or_eq.mp hi with h | h
    · have hne1 : i ≠ k := by omega
      have hne2 : (n - (i : Int) - 1).toNat ≠ (n - (k : Int) - 1).toNat := by omega
      rw [Function.update_noteq hne1, Function.update_noteq hne2]
      exact ih (by omega) i h
    · subst h
      simp

/-- The contents of the two arrays after the synthesis loop, at index `i` and at its
mirror. -/
lemma gensweep_arrays_at (m : MathFns K) (fmin fmax t_sec rate : ℚ)
    (arrays : (Nat → K) × (Nat → K)) (i : Nat)
    (hi : i < (gensweep_n_samples t_sec rate).toNat) :
    (gensweep_arrays m fmin fmax t_sec rate arrays).1 i
        = sweep_x m fmin fmax t_sec rate i * sweep_amp
    ∧ (gensweep_arrays m fmin fmax t_sec rate arrays).2
          (gensweep_n_samples t_sec rate - i - 1).toNat
        = sweep_x m fmin fmax t_sec rate i * sweep_d m fmin fmax t_sec rate i
            * sweep_r m fmin fmax t_sec rate :=
  foldl_update_mirror (fun i => sweep_x m fmin fmax t_sec rate i * sweep_amp)
    (fun i => sweep_x m fmin fmax t_sec rate i * sweep_d m fmin fmax t_sec rate i
      * sweep_r m fmin fmax t_sec rate)
    (gensweep_n_samples t_sec rate) arrays _ (le_refl _) i hi

lemma gensweep_pre_len_44100 : gensweep_pre_len 44100 = 4410 := by
  have h := gensweep_pre 44100 (by decide) (by decide)
  simpa [gensweep_pre_len] using h

lemma gensweep_sin_len_44100 : gensweep_sin_len 10 44100 = 441000 := by
  have h := gensweep_sin 44100 10 (by decide)
  simpa [gensweep_sin_len] using h

lemma gensweep_end_len_44100 : gensweep_end_len 44100 = 1323 := by
  have h := gensweep_end 44100 (by decide) (by decide)
  simpa [gensweep_end_len] using h

lemma gensweep_n_samples_44100 : gensweep_n_samples 10 44100 = 446733 := by
  rw [gensweep_n_samples, gensweep_pre_len_44100, gensweep_sin_len_44100,
    gensweep_end_len_44100]
  rfl

/-- For the default sweep (20 Hz to 20 kHz, 10 s at 44100 Hz) the local `a`, over the
reals, lies in `(0, 1]`. -/
lemma real_sweep_a_bounds :
    0 < Real.log (20000 / 20) / 441000 ∧ Real.log (20000 / 20) / 441000 ≤ 1 := by
  have h1 : (0 : ℝ) < Real.log (20000 / 20) := Real.log_pos (by norm_num)
  have h2 : Real.log (20000 / 20) ≤ 20000 / 20 - 1 :=
    Real.log_le_sub_one_of_pos (by norm_num)
  constructor
  · exact div_pos h1 (by norm_num)
  · rw [div_le_one (by norm_num)]
    norm_num at h2 ⊢
    linarith

/-- One sample after the pre-roll the phase of the default sweep lies in `(0, 1/2)`. -/
lemma real_sweep_phase_bounds (a : ℝ) (ha0 : 0 < a) (ha1 : a ≤ 1) :
    0 < 20 / (a * 44100) * Real.exp (a * 1) - 20 / (a * 44100)
    ∧ 20 / (a * 44100) * Real.exp (a * 1) - 20 / (a * 44100) < 1 / 2 := by
  have hb : 0 < 20 / (a * 44100) := div_pos (by norm_num) (mul_pos ha0 (by norm_num))
  have hexp1 : 1 < Real.exp a := by
    have := Real.add_one_lt_exp (ne_of_gt ha0)
    linarith
  have habs := Real.abs_exp_sub_one_sub_id_le (x := a) (by rw [abs_of_pos ha0]; exact ha1)
  have hexp2 : Real.exp a - 1 ≤ 2 * a := by
    have h1 := (abs_le.mp habs).2
    have h2 : a ^ 2 ≤ a := by nlinarith
    linarith
  have hfac : 20 / (a * 44100) * Real.exp (a * 1) - 20 / (a * 44100)
      = 20 / (a * 44100) * (Real.exp a - 1) := by rw [mul_one]; ring
  rw [hfac]
  constructor
  · exact mul_pos hb (by linarith)
  · have h3 : 20 / (a * 44100) * (Real.exp a - 1) ≤ 20 / (a * 44100) * (2 * a) :=
      mul_le_mul_of_nonneg_left hexp2 (le_of_lt hb)
    have h4 : 20 / (a * 44100) * (2 * a) = 40 / 44100 := by
      field_simp
      ring
    rw [h4] at h3
    norm_num at h3 ⊢
    linarith

/-- For the default sweep over the reals, one sample after the pre-roll (`i = 4411`)
the value stored in the inverse filter is not zero. -/
lemma real_sweep_sample_ne_zero :
    sweep_x (⟨Real.sin, Real.exp, Real.log, fun x => (⌊x⌋ : ℝ), Real.pi⟩ : MathFns ℝ) 20 20000 10 44100 4411
      * sweep_d (⟨Real.sin, Real.exp, Real.log, fun x => (⌊x⌋ : ℝ), Real.pi⟩ : MathFns ℝ) 20 20000 10 44100 4411
      * sweep_r (⟨Real.sin, Real.exp, Real.log, fun x => (⌊x⌋ : ℝ), Real.pi⟩ : MathFns ℝ) 20 20000 10 44100 ≠ 0 := by
  obtain ⟨ha0, ha1⟩ := real_sweep_a_bounds
  have hA : sweep_a (⟨Real.sin, Real.exp, Real.log, fun x => (⌊x⌋ : ℝ), Real.pi⟩ : MathFns ℝ) 20 20000 10 44100
      = Real.log (20000 / 20) / 441000 := by
    simp [sweep_a, gensweep_sin_len_44100]
  have hB : sweep_b (⟨Real.sin, Real.exp, Real.log, fun x => (⌊x⌋ : ℝ), Real.pi⟩ : MathFns ℝ) 20 20000 10 44100
      = 20 / (Real.log (20000 / 20) / 441000 * 44100) := by
    rw [sweep_b, hA]
    simp
  have hD : sweep_d (⟨Real.sin, Real.exp, Real.log, fun x => (⌊x⌋ : ℝ), Real.pi⟩ : MathFns ℝ) 20 20000 10 44100 4411
      = 20 / (Real.log (20000 / 20) / 441000 * 44100)
          * Real.exp (Real.log (20000 / 20) / 441000 * 1) := by
    rw [sweep_d, hA, hB, gensweep_pre_len_44100]
    norm_num
  obtain ⟨hp0, hp1⟩ := real_sweep_phase_bounds _ ha0 ha1
  have hG : sweep_gain (⟨Real.sin, Real.exp, Real.log, fun x => (⌊x⌋ : ℝ), Real.pi⟩ : MathFns ℝ) 10 44100 4411 = 1 := by
    simp [sweep_gain, gensweep_pre_len_44100, gensweep_n_samples_44100, gensweep_end_len_44100]
  have hbpos : 0 < 20 / (Real.log (20000 / 20) / 441000 * 44100) :=
    div_pos (by norm_num) (mul_pos ha0 (by norm_num))
  have hdpos : 0 < sweep_d (⟨Real.sin, Real.exp, Real.log, fun x => (⌊x⌋ : ℝ), Real.pi⟩ : MathFns ℝ) 20 20000 10 44100 4411 := by
    rw [hD]; exact mul_pos hbpos (Real.exp_pos _)
  have hrpos : 0 < sweep_r (⟨Real.sin, Real.exp, Real.log, fun x => (⌊x⌋ : ℝ), Real.pi⟩ : MathFns ℝ) 20 20000 10 44100 := by
    rw [sweep_r, hA, sweep_amp]
    exact div_pos (mul_pos (mul_pos (by norm_num) ha0) ha0) (by norm_num)
  have hfloor : ⌊20 / (Real.log (20000 / 20) / 441000 * 44100)
      * Real.exp (Real.log (20000 / 20) / 441000 * 1)
      - 20 / (Real.log (20000 / 20) / 441000 * 44100)⌋ = 0 :=
    Int.floor_eq_zero_iff.mpr ⟨le_of_lt hp0, by linarith⟩
  have hxpos : 0 < sweep_x (⟨Real.sin, Real.exp, Real.log, fun x => (⌊x⌋ : ℝ), Real.pi⟩ : MathFns ℝ) 20 20000 10 44100 4411 := by
    rw [sweep_x, hG, sweep_p, hD, hB]
    simp only [one_mul, hfloor, Int.cast_zero, sub_zero]
    apply Real.sin_pos_of_pos_of_lt_pi
    · exact mul_pos (mul_pos (by norm_num) Real.pi_pos) hp0
    · have := Real.pi_pos
      nlinarith
  exact ne_of_gt (mul_pos (mul_pos hxpos hdpos) hrpos)

end InverseLemmas

section InverseTheorems

variable {K : Type} [Field K] [CharZero K]

/-- C11 (amended): in exact arithmetic, with `amp = 1 / 2`, `a`, `b`, `r = 4 a² / amp`
and `d i = b * exp (a * (i - n_samples_pre))` as in the source, for every index `i` below
the length and its mirror `j = length - 1 - i`: `sweep_inv[j] * amp = sweep_sin[i] * d i * r`,
that is `sweep_inv[j] = 2 * (sweep_sin[i] * d i * r)`. The inverse filter is the
time-reversed unit-amplitude signal `x i = sweep_sin[i] / amp` scaled by `d i * r`. -/
theorem gensweep_inverse_relation (m : MathFns K) (fmin fmax t_sec rate : ℚ)
    (arrays : (Nat → K) × (Nat → K)) (i : Nat)
    (hi : i < (gensweep_n_samples t_sec rate).toNat) :
    (gensweep_arrays m fmin fmax t_sec rate arrays).2
          (gensweep_n_samples t_sec rate - i - 1).toNat * sweep_amp
        = (gensweep_arrays m fmin fmax t_sec rate arrays).1 i
            * sweep_d m fmin fmax t_sec rate i * sweep_r m fmin fmax t_sec rate
    ∧ (gensweep_arrays m fmin fmax t_sec rate arrays).2
          (gensweep_n_samples t_sec rate - i - 1).toNat
        = 2 * ((gensweep_arrays m fmin fmax t_sec rate arrays).1 i
            * sweep_d m fmin fmax t_sec rate i * sweep_r m fmin fmax t_sec rate) := by
  obtain ⟨h1, h2⟩ := gensweep_arrays_at m fmin fmax t_sec rate arrays i hi
  rw [h1, h2]
  constructor
  · ring
  · unfold sweep_amp
    ring

/-- C11 (amended), at a concrete input: the default sweep over the reals, `i = 4411`. -/
theorem gensweep_inverse_relation_witness :
    (gensweep_arrays (⟨Real.sin, Real.exp, Real.log, fun x => (⌊x⌋ : ℝ), Real.pi⟩ : MathFns ℝ) 20 20000 10 44100 (fun _ => 0, fun _ => 0)).2
          (gensweep_n_samples 10 44100 - (4411 : Nat) - 1).toNat * sweep_amp
        = (gensweep_arrays (⟨Real.sin, Real.exp, Real.log, fun x => (⌊x⌋ : ℝ), Real.pi⟩ : MathFns ℝ) 20 20000 10 44100 (fun _ => 0, fun _ => 0)).1 4411
            * sweep_d (⟨Real.sin, Real.exp, Real.log, fun x => (⌊x⌋ : ℝ), Real.pi⟩ : MathFns ℝ) 20 20000 10 44100 4411 * sweep_r (⟨Real.sin, Real.exp, Real.log, fun x => (⌊x⌋ : ℝ), Real.pi⟩ : MathFns ℝ) 20 20000 10 44100
    ∧ (gensweep_arrays (⟨Real.sin, Real.exp, Real.log, fun x => (⌊x⌋ : ℝ), Real.pi⟩ : MathFns ℝ) 20 20000 10 44100 (fun _ => 0, fun _ => 0)).2
          (gensweep_n_samples 10 44100 - (4411 : Nat) - 1).toNat
        = 2 * ((gensweep_arrays (⟨Real.sin, Real.exp, Real.log, fun x => (⌊x⌋ : ℝ), Real.pi⟩ : MathFns ℝ) 20 20000 10 44100 (fun _ => 0, fun _ => 0)).1 4411
            * sweep_d (⟨Real.sin, Real.exp, Real.log, fun x => (⌊x⌋ : ℝ), Real.pi⟩ : MathFns ℝ) 20 20000 10 44100 4411 * sweep_r (⟨Real.sin, Real.exp, Real.log, fun x => (⌊x⌋ : ℝ), Real.pi⟩ : MathFns ℝ) 20 20000 10 44100) :=
  gensweep_inverse_relation (⟨Real.sin, Real.exp, Real.log, fun x => (⌊x⌋ : ℝ), Real.pi⟩ : MathFns ℝ) 20 20000 10 44100 (fun _ => 0, fun _ => 0) 4411
    (by rw [gensweep_n_samples_44100]; decide)

/-- C11 (as stated, refuted): for the default sweep (20 Hz to 20 kHz, 10 s at 44100 Hz,
length 446733) over the reals, at `i = 4411` with mirror `j = 442321`, `sweep_inv[j]` is
not `sweep_sin[i] * d i * r`: the right-hand side is half of it, and it is not zero. -/
theorem gensweep_inverse_scaling_counterexample :
    (4411 < (gensweep_n_samples 10 44100).toNat
      ∧ (gensweep_n_samples 10 44100 - (4411 : Nat) - 1).toNat = 442321)
    ∧ (gensweep_arrays (⟨Real.sin, Real.exp, Real.log, fun x => (⌊x⌋ : ℝ), Real.pi⟩ : MathFns ℝ) 20 20000 10 44100 (fun _ => 0, fun _ => 0)).2 442321
        ≠ (gensweep_arrays (⟨Real.sin, Real.exp, Real.log, fun x => (⌊x⌋ : ℝ), Real.pi⟩ : MathFns ℝ) 20 20000 10 44100 (fun _ => 0, fun _ => 0)).1 4411
            * sweep_d (⟨Real.sin, Real.exp, Real.log, fun x => (⌊x⌋ : ℝ), Real.pi⟩ : MathFns ℝ) 20 20000 10 44100 4411 * sweep_r (⟨Real.sin, Real.exp, Real.log, fun x => (⌊x⌋ : ℝ), Real.pi⟩ : MathFns ℝ) 20 20000 10 44100 := by
  have hlen : 4411 < (gensweep_n_samples 10 44100).toNat := by
    rw [gensweep_n_samples_44100]; decide
  have hj : (gensweep_n_samples 10 44100 - (4411 : Nat) - 1).toNat = 442321 := by
    rw [gensweep_n_samples_44100]; decide
  obtain ⟨h1, h2⟩ := gensweep_arrays_at (⟨Real.sin, Real.exp, Real.log, fun x => (⌊x⌋ : ℝ), Real.pi⟩ : MathFns ℝ) 20 20000 10 44100 (fun _ => 0, fun _ => 0) 4411 hlen
  rw [hj] at h2
  refine ⟨⟨hlen, hj⟩, ?_⟩
  rw [h1, h2]
  intro heq
  have hne := real_sweep_sample_ne_zero
  apply hne
  unfold sweep_amp at heq
  linear_combination 2 * heq

end InverseTheorems

/-! ## Single-precision rounding -/

section RoundingLemmas

lemma round_half_even_ge (y : ℚ) : y - 1 / 2 ≤ (round_half_even y : ℚ) := by
  have h2 : y < (⌊y⌋ : ℚ) + 1 := Int.lt_floor_add_one y
  unfold round_half_even
  split_ifs with ha hb hc
  · linarith
  · push_cast; linarith
  · linarith
  · push_cast; linarith

lemma round_half_even_mono (y z : ℚ) (h : y ≤ z) : round_half_even y ≤ round_half_even z := by
  have hy1 : (⌊y⌋ : ℚ) ≤ y := Int.floor_le y
  have hz2 : z < (⌊z⌋ : ℚ) + 1 := Int.lt_floor_add_one z
  have hfl : ⌊y⌋ ≤ ⌊z⌋ := Int.floor_mono h
  rcases lt_or_eq_of_le hfl with hlt | heq
  · have hy : round_half_even y ≤ ⌊y⌋ + 1 := by
      unfold round_half_even
      split_ifs <;> omega
    have hz : ⌊z⌋ ≤ round_half_even z := by
      unfold round_half_even
      split_ifs <;> omega
    omega
  · unfold round_half_even
    rw [← heq]
    split_ifs with h1 h2 h3 h4 h5 h6 h7 h8 h9 <;> first
      | omega
      | (exfalso; linarith)

lemma round_half_even_le_of_le (y : ℚ) (M : Int) (h : y ≤ (M : ℚ)) : round_half_even y ≤ M := by
  have := round_half_even_mono y (M : ℚ) h
  rwa [round_half_even_intCast] at this

lemma le_round_half_even_of_le (y : ℚ) (M : Int) (h : (M : ℚ) ≤ y) : M ≤ round_half_even y := by
  have := round_half_even_mono (M : ℚ) y h
  rwa [round_half_even_intCast] at this

/-- The integer within less than one half of `y` is what `y` rounds to. -/
lemma round_half_even_eq (y : ℚ) (M : Int) (h : |y - (M : ℚ)| < 1 / 2) :
    round_half_even y = M := by
  obtain ⟨h1, h2⟩ := abs_lt.mp h
  have hge : M ≤ round_half_even y := le_round_half_even y M (by linarith)
  have hle := round_half_even_le y
  have hlt : (round_half_even y : ℚ) < (M : ℚ) + 1 := by linarith
  have hlt2 : round_half_even y < M + 1 := by exact_mod_cast hlt
  omega

lemma two_zpow_log_le (x : ℚ) (hx : 0 < x) : (2 : ℚ) ^ Int.log 2 x ≤ x := by
  have := Int.zpow_log_le_self (b := 2) (r := x) (by norm_num) hx
  simpa using this

lemma lt_two_zpow_log_succ (x : ℚ) : x < (2 : ℚ) ^ (Int.log 2 x + 1) := by
  have := Int.lt_zpow_succ_log_self (b := 2) (by norm_num) x
  simpa using this

lemma f32_round_ge (x : ℚ) (hx : 0 < x) :
    x - (2 : ℚ) ^ (Int.log 2 x - 24) ≤ f32_round x := by
  have hq : (0 : ℚ) < (2 : ℚ) ^ (Int.log 2 x - 23) := zpow_pos (by norm_num) _
  have hr := round_half_even_ge (x / (2 : ℚ) ^ (Int.log 2 x - 23))
  rw [f32_round_pos_eq x hx]
  calc x - (2 : ℚ) ^ (Int.log 2 x - 24)
      = (x / (2 : ℚ) ^ (Int.log 2 x - 23) - 1 / 2) * (2 : ℚ) ^ (Int.log 2 x - 23) := by
        rw [sub_mul, div_mul_cancel₀ x (ne_of_gt hq), f32_ulp_half]
        ring
    _ ≤ _ := mul_le_mul_of_nonneg_right hr (le_of_lt hq)

/-- Half a unit in the last place is at most `2 ^ (-24)` of the value. -/
lemma f32_ulp_le (x : ℚ) (hx : 0 < x) : (2 : ℚ) ^ (Int.log 2 x - 24) ≤ x / 2 ^ 24 := by
  have h1 := two_zpow_log_le x hx
  have h2 : (2 : ℚ) ^ (Int.log 2 x - 24) = (2 : ℚ) ^ Int.log 2 x / 2 ^ 24 := by
    rw [zpow_sub₀ (by norm_num : (2 : ℚ) ≠ 0)]
    norm_num
  rw [h2]
  exact div_le_div_of_nonneg_right h1 (by norm_num)

/-- The relative error of rounding a positive value to a 24-bit significand. -/
lemma f32_round_abs_err (x : ℚ) (hx : 0 < x) : |f32_round x - x| ≤ x / 2 ^ 24 := by
  have h1 := f32_round_le x hx
  have h2 := f32_round_ge x hx
  have h3 := f32_ulp_le x hx
  rw [abs_le]
  constructor <;> linarith

lemma f32_round_ge_pow (x : ℚ) (hx : 0 < x) : (2 : ℚ) ^ Int.log 2 x ≤ f32_round x := by
  have hq : (0 : ℚ) < (2 : ℚ) ^ (Int.log 2 x - 23) := zpow_pos (by norm_num) _
  have hsplit : (2 : ℚ) ^ Int.log 2 x = ((2 ^ 23 : Int) : ℚ) * (2 : ℚ) ^ (Int.log 2 x - 23) := by
    have h : Int.log 2 x = 23 + (Int.log 2 x - 23) := by omega
    conv_lhs => rw [h, zpow_add₀ (by norm_num : (2 : ℚ) ≠ 0)]
    norm_num
  have hdiv : ((2 ^ 23 : Int) : ℚ) ≤ x / (2 : ℚ) ^ (Int.log 2 x - 23) := by
    rw [le_div_iff₀ hq, ← hsplit]
    exact two_zpow_log_le x hx
  have hr := le_round_half_even_of_le _ _ hdiv
  have hr2 : ((2 ^ 23 : Int) : ℚ) ≤ (round_half_even (x / (2 : ℚ) ^ (Int.log 2 x - 23)) : ℚ) := by
    exact_mod_cast hr
  rw [f32_round_pos_eq x hx, hsplit]
  exact mul_le_mul_of_nonneg_right hr2 (le_of_lt hq)

lemma f32_round_le_pow (x : ℚ) (hx : 0 < x) : f32_round x ≤ (2 : ℚ) ^ (Int.log 2 x + 1) := by
  have hq : (0 : ℚ) < (2 : ℚ) ^ (Int.log 2 x - 23) := zpow_pos (by norm_num) _
  have hsplit : (2 : ℚ) ^ (Int.log 2 x + 1)
      = ((2 ^ 24 : Int) : ℚ) * (2 : ℚ) ^ (Int.log 2 x - 23) := by
    have h : Int.log 2 x + 1 = 24 + (Int.log 2 x - 23) := by omega
    conv_lhs => rw [h, zpow_add₀ (by norm_num : (2 : ℚ) ≠ 0)]
    norm_num
  have hdiv : x / (2 : ℚ) ^ (Int.log 2 x - 23) ≤ ((2 ^ 24 : Int) : ℚ) := by
    rw [div_le_iff₀ hq, ← hsplit]
    exact le_of_lt (lt_two_zpow_log_succ x)
  have hr := round_half_even_le_of_le _ _ hdiv
  have hr2 : (round_half_even (x / (2 : ℚ) ^ (Int.log 2 x - 23)) : ℚ) ≤ ((2 ^ 24 : Int) : ℚ) := by
    exact_mod_cast hr
  rw [f32_round_pos_eq x hx, hsplit]
  exact mul_le_mul_of_nonneg_right hr2 (le_of_lt hq)

/-- Rounding to a 24-bit significand is monotone on positive values. -/
lemma f32_round_mono (x y : ℚ) (hx : 0 < x) (hxy : x ≤ y) : f32_round x ≤ f32_round y := by
  have hy : 0 < y := lt_of_lt_of_le hx hxy
  have hlog : Int.log 2 x ≤ Int.log 2 y := Int.log_mono_right hx hxy
  rcases lt_or_eq_of_le hlog with hlt | heq
  · calc f32_round x ≤ (2 : ℚ) ^ (Int.log 2 x + 1) := f32_round_le_pow x hx
      _ ≤ (2 : ℚ) ^ Int.log 2 y := zpow_le_zpow_right₀ (by norm_num) (by omega)
      _ ≤ f32_round y := f32_round_ge_pow y hy
  · have hq : (0 : ℚ) < (2 : ℚ) ^ (Int.log 2 y - 23) := zpow_pos (by norm_num) _
    rw [f32_round_pos_eq x hx, f32_round_pos_eq y hy, heq]
    apply mul_le_mul_of_nonneg_right _ (le_of_lt hq)
    have := round_half_even_mono (x / (2 : ℚ) ^ (Int.log 2 y - 23))
      (y / (2 : ℚ) ^ (Int.log 2 y - 23)) (div_le_div_of_nonneg_right hxy (le_of_lt hq))
    exact_mod_cast this

lemma f32_rne_mag_zero : f32_rne_mag 0 = 0 := by
  unfold f32_rne_mag
  rw [if_pos (by norm_num)]
  have h : round_half_even ((0 : ℚ) * 2 ^ 149) = 0 := by
    rw [zero_mul]; exact_mod_cast round_half_even_intCast 0
  rw [h]; simp

lemma f32_rne_mag_sub_le (y : ℚ) (hy : y < 1 / 2 ^ 126) :
    f32_rne_mag y ≤ 1 / 2 ^ 126 := by
  unfold f32_rne_mag
  rw [if_pos hy]
  have hw : y * 2 ^ 149 ≤ ((2 ^ 23 : Int) : ℚ) := by
    have : y * 2 ^ 149 ≤ 1 / 2 ^ 126 * 2 ^ 149 :=
      mul_le_mul_of_nonneg_right (le_of_lt hy) (by positivity)
    norm_num at this ⊢
    linarith
  have hr := round_half_even_le_of_le _ _ hw
  have hr2 : (round_half_even (y * 2 ^ 149) : ℚ) ≤ ((2 ^ 23 : Int) : ℚ) := by exact_mod_cast hr
  rw [div_le_iff₀ (by positivity)]
  norm_num at hr2 ⊢
  linarith

lemma f32_round_normal_ge (z : ℚ) (hz : 1 / 2 ^ 126 ≤ z) : 1 / 2 ^ 126 ≤ f32_round z := by
  have hpos : (0 : ℚ) < z := lt_of_lt_of_le (by positivity) hz
  have hz2 : (2 : ℚ) ^ (-126 : Int) ≤ z := by
    have : (2 : ℚ) ^ (-126 : Int) = 1 / 2 ^ 126 := by norm_num
    rw [this]; exact hz
  have he := int_log_two_ge z hpos (-126) hz2
  calc (1 : ℚ) / 2 ^ 126 = (2 : ℚ) ^ (-126 : Int) := by norm_num
    _ ≤ (2 : ℚ) ^ Int.log 2 z := zpow_le_zpow_right₀ (by norm_num) he
    _ ≤ f32_round z := f32_round_ge_pow z hpos

lemma f32_rne_mag_nonneg (y : ℚ) (hy : 0 ≤ y) : 0 ≤ f32_rne_mag y := by
  by_cases hs : y < 1 / 2 ^ 126
  · unfold f32_rne_mag
    rw [if_pos hs]
    have hw : ((0 : Int) : ℚ) ≤ y * 2 ^ 149 := by
      push_cast; positivity
    have hr := le_round_half_even_of_le _ _ hw
    have hr2 : (0 : ℚ) ≤ (round_half_even (y * 2 ^ 149) : ℚ) := by exact_mod_cast hr
    positivity
  · unfold f32_rne_mag
    rw [if_neg hs]
    have := f32_round_normal_ge y (not_lt.mp hs)
    have h0 : (0 : ℚ) < 1 / 2 ^ 126 := by positivity
    linarith

/-- Rounding to `float` is monotone on non-negative values. -/
lemma f32_rne_mag_mono (y z : ℚ) (hyz : y ≤ z) :
    f32_rne_mag y ≤ f32_rne_mag z := by
  by_cases hys : y < 1 / 2 ^ 126
  · by_cases hzs : z < 1 / 2 ^ 126
    · unfold f32_rne_mag
      rw [if_pos hys, if_pos hzs]
      have hm := round_half_even_mono (y * 2 ^ 149) (z * 2 ^ 149)
        (mul_le_mul_of_nonneg_right hyz (by positivity))
      have hm2 : (round_half_even (y * 2 ^ 149) : ℚ) ≤ (round_half_even (z * 2 ^ 149) : ℚ) := by
        exact_mod_cast hm
      exact div_le_div_of_nonneg_right hm2 (by positivity)
    · have h1 := f32_rne_mag_sub_le y hys
      have h2 := f32_round_normal_ge z (not_lt.mp hzs)
      have h3 : f32_rne_mag z = f32_round z := by
        unfold f32_rne_mag; rw [if_neg hzs]
      rw [h3]; linarith
  · have hzs : ¬ z < 1 / 2 ^ 126 := by
      intro h; exact hys (lt_of_le_of_lt hyz h)
    have hpos : (0 : ℚ) < y := lt_of_lt_of_le (by positivity) (not_lt.mp hys)
    unfold f32_rne_mag
    rw [if_neg hys, if_neg hzs]
    exact f32_round_mono y z hpos hyz

/-- The error of rounding a non-negative value to `float`: relative `2 ^ (-24)` in the
normal range, absolute `2 ^ (-150)` in the subnormal range. -/
lemma f32_rne_mag_abs_err (y : ℚ) (hy : 0 ≤ y) :
    |f32_rne_mag y - y| ≤ y / 2 ^ 24 + 1 / 2 ^ 150 := by
  by_cases hs : y < 1 / 2 ^ 126
  · unfold f32_rne_mag
    rw [if_pos hs]
    have h1 := round_half_even_le (y * 2 ^ 149)
    have h2 := round_half_even_ge (y * 2 ^ 149)
    have hy24 : 0 ≤ y / 2 ^ 24 := by positivity
    rw [abs_le]
    constructor
    · have : y - 1 / 2 ^ 150 ≤ (round_half_even (y * 2 ^ 149) : ℚ) / 2 ^ 149 := by
        rw [le_div_iff₀ (by positivity)]
        norm_num at h2 ⊢
        linarith
      linarith
    · have : (round_half_even (y * 2 ^ 149) : ℚ) / 2 ^ 149 ≤ y + 1 / 2 ^ 150 := by
        rw [div_le_iff₀ (by positivity)]
        norm_num at h1 ⊢
        linarith
      linarith
  · have hpos : (0 : ℚ) < y := lt_of_lt_of_le (by positivity) (not_lt.mp hs)
    unfold f32_rne_mag
    rw [if_neg hs]
    have := f32_round_abs_err y hpos
    have h0 : (0 : ℚ) ≤ 1 / 2 ^ 150 := by positivity
    linarith

lemma f32_rne_mag_normal_err (y : ℚ) (hy : 1 / 2 ^ 126 ≤ y) :
    |f32_rne_mag y - y| ≤ y / 2 ^ 24 := by
  have hpos : (0 : ℚ) < y := lt_of_lt_of_le (by positivity) hy
  unfold f32_rne_mag
  rw [if_neg (not_lt.mpr hy)]
  exact f32_round_abs_err y hpos

lemma f32_rne_of_nonneg (x : ℚ) (hx : 0 ≤ x) : f32_rne x = f32_rne_mag x := by
  unfold f32_rne
  rw [if_neg (not_lt.mpr hx)]

lemma f32_rne_of_normal (x : ℚ) (hx : 1 / 2 ^ 126 ≤ x) : f32_rne x = f32_round x := by
  have hpos : (0 : ℚ) < x := lt_of_lt_of_le (by positivity) hx
  rw [f32_rne_of_nonneg x (le_of_lt hpos)]
  unfold f32_rne_mag
  rw [if_neg (not_lt.mpr hx)]

lemma f32_rne_zero : f32_rne 0 = 0 := by
  rw [f32_rne_of_nonneg 0 (le_refl 0), f32_rne_mag_zero]

/-- Natural numbers below `2 ^ 24` are `float` values. -/
lemma f32_rne_natCast (m : Nat) (hm : m < 2 ^ 24) : f32_rne (m : ℚ) = m := by
  rcases Nat.eq_zero_or_pos m with h0 | hpos
  · subst h0; simpa using f32_rne_zero
  · have h1 : (1 : ℚ) ≤ (m : ℚ) := by exact_mod_cast hpos
    have h2 : (1 : ℚ) / 2 ^ 126 ≤ 1 := by norm_num
    rw [f32_rne_of_normal _ (le_trans h2 h1), f32_round_natCast m hm]

lemma f32_rne_one : f32_rne 1 = 1 := by
  have := f32_rne_natCast 1 (by norm_num)
  simpa using this

/-- Rounding to `float` commutes with the absolute value. -/
lemma abs_f32_rne (x : ℚ) : |f32_rne x| = f32_rne_mag |x| := by
  unfold f32_rne
  by_cases hx : x < 0
  · rw [if_pos hx, abs_neg, abs_of_neg hx,
      abs_of_nonneg (f32_rne_mag_nonneg _ (by linarith))]
  · rw [if_neg hx, abs_of_nonneg (not_lt.mp hx),
      abs_of_nonneg (f32_rne_mag_nonneg _ (not_lt.mp hx))]

/-- The error of rounding to `float`. -/
lemma f32_rne_abs_err (x : ℚ) : |f32_rne x - x| ≤ |x| / 2 ^ 24 + 1 / 2 ^ 150 := by
  unfold f32_rne
  by_cases hx : x < 0
  · rw [if_pos hx, abs_of_neg hx]
    have := f32_rne_mag_abs_err (-x) (by linarith)
    have h2 : -f32_rne_mag (-x) - x = -(f32_rne_mag (-x) - -x) := by ring
    rw [h2, abs_neg]
    exact this
  · rw [if_neg hx, abs_of_nonneg (not_lt.mp hx)]
    exact f32_rne_mag_abs_err x (not_lt.mp hx)

/-- Evaluation of the rounding of a normal value once its binade is known. -/
lemma f32_rne_binade (x : ℚ) (e : Int) (hlo : (2 : ℚ) ^ e ≤ x) (hhi : x < (2 : ℚ) ^ (e + 1))
    (he : -126 ≤ e) :
    f32_rne x = (round_half_even (x / (2 : ℚ) ^ (e - 23)) : ℚ) * (2 : ℚ) ^ (e - 23) := by
  have hpos : (0 : ℚ) < x := lt_of_lt_of_le (zpow_pos (by norm_num) _) hlo
  have h1 := int_log_two_ge x hpos e hlo
  have h2 := int_log_two_lt x hpos (e + 1) hhi
  have hlog : Int.log 2 x = e := by omega
  have hnorm : (1 : ℚ) / 2 ^ 126 ≤ x := by
    calc (1 : ℚ) / 2 ^ 126 = (2 : ℚ) ^ (-126 : Int) := by norm_num
      _ ≤ (2 : ℚ) ^ e := zpow_le_zpow_right₀ (by norm_num) he
      _ ≤ x := hlo
  rw [f32_rne_of_normal x hnorm, f32_round_pos_eq x hpos, hlog]

/-- Evaluation of the rounding of a normal value: the multiple of the spacing within
less than half a spacing of it. -/
lemma f32_rne_eval (x : ℚ) (e : Int) (M : Int) (hlo : (2 : ℚ) ^ e ≤ x)
    (hhi : x < (2 : ℚ) ^ (e + 1)) (he : -126 ≤ e)
    (hM : |x / (2 : ℚ) ^ (e - 23) - (M : ℚ)| < 1 / 2) :
    f32_rne x = (M : ℚ) * (2 : ℚ) ^ (e - 23) := by
  rw [f32_rne_binade x e hlo hhi he, round_half_even_eq _ M hM]

/-- A value half-way between two integers rounds to the even one. -/
lemma round_half_even_tie (f : Int) (hf : f % 2 = 0) :
    round_half_even ((f : ℚ) + 1 / 2) = f := by
  have hfl : ⌊(f : ℚ) + 1 / 2⌋ = f := by
    rw [Int.floor_eq_iff]
    constructor <;> linarith
  unfold round_half_even
  rw [hfl]
  have h1 : ¬ ((f : ℚ) + 1 / 2 - (f : ℚ) < 1 / 2) := by norm_num
  have h2 : ¬ ((f : ℚ) + 1 / 2 - (f : ℚ) > 1 / 2) := by norm_num
  rw [if_neg h1, if_neg h2, if_pos hf]

end RoundingLemmas

/-! ## Normalisation in single precision -/

section NormalizeLemmas

lemma digital_peak_chan_map (h : ℚ → ℚ) (hmono : Monotone h) (n : Nat) (data data2 : Buffers ℚ)
    (c : Nat) (m : ℚ) (hd : ∀ i, i < n → |data2 c i| = h |data c i|) :
    digital_peak_chan n data2 c (h m) = h (digital_peak_chan n data c m) := by
  induction n with
  | zero => simp [digital_peak_chan_zero]
  | succ n ih =>
    rw [digital_peak_chan_succ, digital_peak_chan_succ,
      ih (fun i hi => hd i (Nat.lt_succ_of_lt hi)), hd n (Nat.lt_succ_self n),
      hmono.map_max]

/-- If the magnitude of every measured sample is mapped by a monotone function that
fixes `0`, so is the peak. -/
lemma digital_peak_map (h : ℚ → ℚ) (hmono : Monotone h) (h0 : h 0 = 0) (k n_samples : Nat)
    (data data2 : Buffers ℚ)
    (hd : ∀ c, c < k → ∀ i, i < n_samples → |data2 c i| = h |data c i|) :
    digital_peak k n_samples data2 = h (digital_peak k n_samples data) := by
  induction k with
  | zero => simp [digital_peak_zero, h0]
  | succ k ih =>
    rw [digital_peak_succ, digital_peak_succ, ih (fun c hc => hd c (Nat.lt_succ_of_lt hc)),
      digital_peak_chan_map h hmono n_samples data data2 k _ (hd k (Nat.lt_succ_self k))]

/-- The value of `normalize_peak` in its scaling branch. -/
lemma normalize_peak_scaled (fl : ℚ → ℚ) (target : ℚ) (n_channels n_samples : Nat)
    (data : Buffers ℚ)
    (hb : ¬ (digital_peak n_channels n_samples data = 0
        ∨ digital_peak n_channels n_samples data > target)) :
    normalize_peak fl target n_channels n_samples data
      = (fl (target / digital_peak n_channels n_samples data),
          fun c n => if c < n_channels ∧ n < n_samples then
            fl (data c n * fl (target / digital_peak n_channels n_samples data))
          else data c n) := by
  simp only [normalize_peak, hb, if_false]

/-- The peak after the scaling branch of `normalize_peak`: the rounded product of the
peak and the gain. -/
lemma normalize_peak_scaled_peak (target : ℚ) (n_channels n_samples : Nat) (data : Buffers ℚ)
    (hb : ¬ (digital_peak n_channels n_samples data = 0
        ∨ digital_peak n_channels n_samples data > target))
    (hT : 0 ≤ target) :
    digital_peak n_channels n_samples
        (normalize_peak f32_rne target n_channels n_samples data).2
      = f32_rne_mag (digital_peak n_channels n_samples data
          * f32_rne (target / digital_peak n_channels n_samples data)) := by
  have hp0 := digital_peak_nonneg n_channels n_samples data
  have hq : 0 ≤ target / digital_peak n_channels n_samples data := div_nonneg hT hp0
  have hg : 0 ≤ f32_rne (target / digital_peak n_channels n_samples data) := by
    rw [f32_rne_of_nonneg _ hq]; exact f32_rne_mag_nonneg _ hq
  have hmono : Monotone (fun t : ℚ =>
      f32_rne_mag (t * f32_rne (target / digital_peak n_channels n_samples data))) := by
    intro a b hab
    exact f32_rne_mag_mono _ _ (mul_le_mul_of_nonneg_right hab hg)
  have h0 : (fun t : ℚ =>
      f32_rne_mag (t * f32_rne (target / digital_peak n_channels n_samples data))) 0 = 0 := by
    simp only [zero_mul]; exact f32_rne_mag_zero
  have key := digital_peak_map _ hmono h0 n_channels n_samples data
    (normalize_peak f32_rne target n_channels n_samples data).2 (by
      intro c hc i hi
      rw [normalize_peak_scaled f32_rne target n_channels n_samples data hb]
      simp only [hc, hi, and_self, if_true]
      rw [abs_f32_rne, abs_mul, abs_of_nonneg hg])
  exact key

end NormalizeLemmas

section NormalizeTheorems

lemma digital_peak_quiet_input : digital_peak 1 2 quiet_input = 19 / 64 := by
  rw [digital_peak_succ, digital_peak_zero, digital_peak_chan_succ, digital_peak_chan_succ,
    digital_peak_chan_zero]
  norm_num [quiet_input, abs_of_pos]

lemma is_f32_quiet_input (c n : Nat) : is_f32 (quiet_input c n) := by
  unfold is_f32 quiet_input
  by_cases h : n = 0
  · rw [if_pos h, f32_rne_eval (19 / 64) (-2) 9961472 (by norm_num) (by norm_num)
      (by norm_num) (by norm_num)]
    norm_num
  · rw [if_neg h, f32_rne_eval (1 / 8) (-3) 8388608 (by norm_num) (by norm_num)
      (by norm_num) (by norm_num)]
    norm_num

/-- C2 (as stated, refuted): a peak of `1/2`, below the -3 dBFS target, is not left at
gain `1`; and a peak of `1`, above the target, is not brought down to the target. -/
theorem normalize_peak_inverted_counterexample :
    (digital_peak 1 1 (fun _ _ => (1 / 2 : ℚ)) ≤ level_m3dBFS
      ∧ (normalize_peak f32_rne level_m3dBFS 1 1 (fun _ _ => (1 / 2 : ℚ))).1 ≠ 1)
    ∧ (digital_peak 1 1 (fun _ _ => (1 : ℚ)) > level_m3dBFS
      ∧ digital_peak 1 1 (normalize_peak f32_rne level_m3dBFS 1 1 (fun _ _ => (1 : ℚ))).2
          ≠ level_m3dBFS) := by
  have h1 : digital_peak 1 1 (fun _ _ => (1 / 2 : ℚ)) = 1 / 2 := by
    rw [digital_peak_succ, digital_peak_zero, digital_peak_chan_succ, digital_peak_chan_zero]
    norm_num [abs_of_pos]
  have h2 : digital_peak 1 1 (fun _ _ => (1 : ℚ)) = 1 := by
    rw [digital_peak_succ, digital_peak_zero, digital_peak_chan_succ, digital_peak_chan_zero]
    norm_num
  refine ⟨⟨?_, ?_⟩, ?_, ?_⟩
  · rw [h1]; norm_num [level_m3dBFS]
  · have hb : ¬ (digital_peak 1 1 (fun _ _ => (1 / 2 : ℚ)) = 0
        ∨ digital_peak 1 1 (fun _ _ => (1 / 2 : ℚ)) > level_m3dBFS) := by
      rw [h1]; norm_num [level_m3dBFS]
    rw [normalize_peak_scaled f32_rne level_m3dBFS 1 1 _ hb, h1]
    simp only []
    rw [f32_rne_eval (level_m3dBFS / (1 / 2)) 0 11877359
      (by norm_num [level_m3dBFS]) (by norm_num [level_m3dBFS]) (by norm_num)
      (by norm_num [level_m3dBFS])]
    norm_num
  · rw [h2]; norm_num [level_m3dBFS]
  · simp only [normalize_peak, h2]; norm_num [level_m3dBFS, h2]

/-- C2 (amended): if the peak `p` is `0` or above the target `T`, the returned gain is
`1` and the buffers are unchanged; if `p ≤ T` and `p` is positive and not subnormal (for
a target between `1/2` and `1`, as the -3 dBFS target is), the peak after normalisation
equals `T` within floating tolerance: it differs from `T` by at most `T / 2 ^ 22`. -/
theorem normalize_peak_reaches_target (target : ℚ) (n_channels n_samples : Nat)
    (data : Buffers ℚ) :
    ((digital_peak n_channels n_samples data = 0
        ∨ digital_peak n_channels n_samples data > target) →
      (normalize_peak f32_rne target n_channels n_samples data).1 = 1
        ∧ ∀ c n, (normalize_peak f32_rne target n_channels n_samples data).2 c n = data c n)
    ∧ ((1 / 2 ^ 126 ≤ digital_peak n_channels n_samples data
        ∧ digital_peak n_channels n_samples data ≤ target) →
      1 / 2 ≤ target → target ≤ 1 →
      |digital_peak n_channels n_samples
          (normalize_peak f32_rne target n_channels n_samples data).2 - target|
        ≤ target / 2 ^ 22) := by
  constructor
  · intro h
    simp [normalize_peak, h]
  · rintro ⟨hnorm, hle⟩ hT1 _
    have hppos : 0 < digital_peak n_channels n_samples data :=
      lt_of_lt_of_le (by positivity) hnorm
    have hb : ¬ (digital_peak n_channels n_samples data = 0
        ∨ digital_peak n_channels n_samples data > target) := by
      intro hb
      rcases hb with hb | hb
      · exact (ne_of_gt hppos) hb
      · exact (not_lt.mpr hle) hb
    have hT0 : 0 ≤ target := by linarith
    rw [normalize_peak_scaled_peak target n_channels n_samples data hb hT0]
    have hq1 : 1 ≤ target / digital_peak n_channels n_samples data := by
      rw [le_div_iff₀ hppos]; linarith
    have hq2 : (1 : ℚ) / 2 ^ 126 ≤ target / digital_peak n_channels n_samples data :=
      le_trans (by norm_num) hq1
    have hgerr : |f32_rne (target / digital_peak n_channels n_samples data)
        - target / digital_peak n_channels n_samples data|
        ≤ target / digital_peak n_channels n_samples data / 2 ^ 24 := by
      rw [f32_rne_of_nonneg _ (le_trans (by norm_num) hq1)]
      exact f32_rne_mag_normal_err _ hq2
    have hpq : digital_peak n_channels n_samples data
        * (target / digital_peak n_channels n_samples data) = target :=
      mul_div_cancel₀ target (ne_of_gt hppos)
    have haerr : |digital_peak n_channels n_samples data
        * f32_rne (target / digital_peak n_channels n_samples data) - target|
        ≤ target / 2 ^ 24 := by
      have h1 : digital_peak n_channels n_samples data
          * f32_rne (target / digital_peak n_channels n_samples data) - target
          = digital_peak n_channels n_samples data
            * (f32_rne (target / digital_peak n_channels n_samples data)
              - target / digital_peak n_channels n_samples data) := by
        rw [mul_sub, hpq]
      rw [h1, abs_mul, abs_of_pos hppos]
      calc digital_peak n_channels n_samples data
            * |f32_rne (target / digital_peak n_channels n_samples data)
              - target / digital_peak n_channels n_samples data|
          ≤ digital_peak n_channels n_samples data
            * (target / digital_peak n_channels n_samples data / 2 ^ 24) :=
            mul_le_mul_of_nonneg_left hgerr (le_of_lt hppos)
        _ = target / 2 ^ 24 := by rw [← mul_div_assoc, hpq]
    obtain ⟨ha1, ha2⟩ := abs_le.mp haerr
    have hanorm : (1 : ℚ) / 2 ^ 126 ≤ digital_peak n_channels n_samples data
        * f32_rne (target / digital_peak n_channels n_samples data) := by
      have : (1 : ℚ) / 2 ^ 126 ≤ 1 / 2 - 1 / 2 / 2 ^ 24 := by norm_num
      have h2 : target / 2 ^ 24 ≤ 1 / 2 ^ 24 := by
        apply div_le_div_of_nonneg_right _ (by positivity)
        assumption
      nlinarith
    have hmerr := f32_rne_mag_normal_err _ hanorm
    obtain ⟨hm1, hm2⟩ := abs_le.mp hmerr
    rw [abs_le]
    have h22 : target / 2 ^ 22 = 4 * (target / 2 ^ 24) := by ring
    have h24 : 0 ≤ target / 2 ^ 24 := by positivity
    have hsmall : (digital_peak n_channels n_samples data
        * f32_rne (target / digital_peak n_channels n_samples data)) / 2 ^ 24
        ≤ 2 * (target / 2 ^ 24) := by
      rw [div_le_iff₀ (by positivity)]
      have : 2 * (target / 2 ^ 24) * 2 ^ 24 = 2 * target := by ring
      rw [this]
      have : target / 2 ^ 24 ≤ target := by
        rw [div_le_iff₀ (by positivity)]
        nlinarith
      linarith
    constructor <;> linarith

/-- C2 (amended), at a concrete input: for the samples `19/64` and `1/8` the peak after
normalisation is within the tolerance of the -3 dBFS target. -/
theorem normalize_peak_reaches_target_witness :
    |digital_peak 1 2 (normalize_peak f32_rne level_m3dBFS 1 2 quiet_input).2 - level_m3dBFS|
      ≤ level_m3dBFS / 2 ^ 22 :=
  (normalize_peak_reaches_target level_m3dBFS 1 2 quiet_input).2
    ⟨by rw [digital_peak_quiet_input]; norm_num,
     by rw [digital_peak_quiet_input]; norm_num [level_m3dBFS]⟩
    (by norm_num [level_m3dBFS]) (by norm_num [level_m3dBFS])

end NormalizeTheorems

/-! ## The fade in single precision -/

section FadeLemmas

/-- The faded sample `fl (x * fl (1 - fl (fl n / fl W)))` is within floating tolerance of
the exact product `x * (1 - n / W)`. -/
lemma fade_sample_err (n W : Nat) (hW : W < 2 ^ 24) (hn : n < W) (x : ℚ) :
    |f32_rne (x * f32_rne (1 - f32_rne (f32_rne (n : ℚ) / f32_rne (W : ℚ))))
        - x * (1 - (n : ℚ) / (W : ℚ))|
      ≤ |x| / 2 ^ 21 + 1 / 2 ^ 150 := by
  rw [f32_rne_natCast n (by omega), f32_rne_natCast W hW]
  have hWpos : (0 : ℚ) < (W : ℚ) := by
    have : 0 < W := by omega
    exact_mod_cast this
  have hq0 : (0 : ℚ) ≤ (n : ℚ) / (W : ℚ) := by positivity
  have hq1 : (n : ℚ) / (W : ℚ) ≤ 1 := by
    rw [div_le_one hWpos]
    exact_mod_cast le_of_lt hn
  have e1 := f32_rne_abs_err ((n : ℚ) / (W : ℚ))
  rw [abs_of_nonneg hq0] at e1
  have hu : (n : ℚ) / (W : ℚ) / 2 ^ 24 ≤ 1 / 2 ^ 24 :=
    div_le_div_of_nonneg_right hq1 (by positivity)
  obtain ⟨e1a, e1b⟩ := abs_le.mp e1
  have hs : |1 - f32_rne ((n : ℚ) / (W : ℚ))| ≤ 2 := by
    rw [abs_le]
    constructor
    · norm_num at hu e1b ⊢; linarith
    · norm_num at hu e1a ⊢; linarith
  have e2 := f32_rne_abs_err (1 - f32_rne ((n : ℚ) / (W : ℚ)))
  have hu2 : |1 - f32_rne ((n : ℚ) / (W : ℚ))| / 2 ^ 24 ≤ 2 / 2 ^ 24 :=
    div_le_div_of_nonneg_right hs (by positivity)
  obtain ⟨e2a, e2b⟩ := abs_le.mp e2
  have hg : |f32_rne (1 - f32_rne ((n : ℚ) / (W : ℚ))) - (1 - (n : ℚ) / (W : ℚ))|
      ≤ 3 / 2 ^ 24 + 2 / 2 ^ 150 := by
    rw [abs_le]
    constructor <;> linarith
  obtain ⟨hga, hgb⟩ := abs_le.mp hg
  have hgabs : |f32_rne (1 - f32_rne ((n : ℚ) / (W : ℚ)))| ≤ 2 := by
    rw [abs_le]
    constructor
    · norm_num at hga ⊢; linarith
    · norm_num at hgb ⊢; linarith
  have e3 := f32_rne_abs_err (x * f32_rne (1 - f32_rne ((n : ℚ) / (W : ℚ))))
  have hxg : |x * f32_rne (1 - f32_rne ((n : ℚ) / (W : ℚ)))| ≤ |x| * 2 := by
    rw [abs_mul]
    exact mul_le_mul_of_nonneg_left hgabs (abs_nonneg x)
  have hu3 : |x * f32_rne (1 - f32_rne ((n : ℚ) / (W : ℚ)))| / 2 ^ 24 ≤ |x| * 2 / 2 ^ 24 :=
    div_le_div_of_nonneg_right hxg (by positivity)
  have hprod : |x * f32_rne (1 - f32_rne ((n : ℚ) / (W : ℚ)))
      - x * (1 - (n : ℚ) / (W : ℚ))| ≤ |x| * (3 / 2 ^ 24 + 2 / 2 ^ 150) := by
    rw [← mul_sub, abs_mul]
    exact mul_le_mul_of_nonneg_left hg (abs_nonneg x)
  have htri := abs_sub_le (f32_rne (x * f32_rne (1 - f32_rne ((n : ℚ) / (W : ℚ)))))
    (x * f32_rne (1 - f32_rne ((n : ℚ) / (W : ℚ)))) (x * (1 - (n : ℚ) / (W : ℚ)))
  have hx0 := abs_nonneg x
  have hfinal : |x| * 2 / 2 ^ 24 + 1 / 2 ^ 150 + |x| * (3 / 2 ^ 24 + 2 / 2 ^ 150)
      ≤ |x| / 2 ^ 21 + 1 / 2 ^ 150 := by
    have : |x| * 2 / 2 ^ 24 + |x| * (3 / 2 ^ 24 + 2 / 2 ^ 150)
        = |x| * (5 / 2 ^ 24 + 2 / 2 ^ 150) := by ring
    have h2 : |x| / 2 ^ 21 = |x| * (8 / 2 ^ 24) := by ring
    have h3 : |x| * (5 / 2 ^ 24 + 2 / 2 ^ 150) ≤ |x| * (8 / 2 ^ 24) :=
      mul_le_mul_of_nonneg_left (by norm_num) hx0
    linarith
  linarith

end FadeLemmas

section FadeTheorems

/-- The cut index of `trim_end` on the fade test input at `rate = 60`. -/
lemma trim_end_fade_input_cut :
    (trim_end f32_rne level_m20dBFS level_m60dBFS 1 60 7 fade_input).map Prod.fst
      = some 4 := by
  have harm : |fade_input 0 0| > level_m20dBFS := by
    norm_num [fade_input, level_m20dBFS]
  rw [trim_end_eq _ _ _ _ _ _ _ (by decide)]
  simp only [Option.map_some']
  congr 1
  refine trim_search_finds_run level_m20dBFS level_m60dBFS (60 / 20) 1 7 fade_input 1
    (by decide) ?_ ?_ 7 0 0 true (by decide) ?_ (by decide) (by decide) (by decide)
    (by decide) ?_
  · intro i hi1 hi2
    refine ⟨⟨0, by omega, 0, by omega, harm⟩, fun c _ => ?_⟩
    have h0 : i ≠ 0 := by omega
    have h5 : i < 5 := by
      have : (60 : Nat) / 20 = 3 := by decide
      omega
    simp only [fade_input, h0, h5, if_false, if_true]
    norm_num [level_m60dBFS, abs_of_pos]
  · intro s2 hs2
    refine ⟨0, by omega, by omega, ?_⟩
    rintro ⟨⟨m, hm, _⟩, _⟩
    omega
  · constructor
    · intro h; exact absurd h (by simp)
    · rintro ⟨m, hm, _⟩; omega
  · intro i _ hi; omega

/-- C6: for `n_samples > W = rate / 20`, `trim_end` on `float` samples returns a cut index
`c` with `W ≤ c ≤ n_samples` (neither assertion fails and every index touched lies
inside the buffer); every sample at an index `≥ c` is `0`; for `n < W` the sample at
`c - W + n` is the original one multiplied, in `float`, by the `float` ramp `1 - n / W`,
which for `W < 2 ^ 24` is within floating tolerance of the exact product; and every
sample at an index `< c - W` is unchanged. -/
theorem trim_end_fade_and_zero (sig_lvl sig_min : ℚ) (n_channels rate n_samples : Nat)
    (data : Buffers ℚ) (hn : n_samples > rate / 20) :
    ∃ c out, trim_end f32_rne sig_lvl sig_min n_channels rate n_samples data = some (c, out)
      ∧ rate / 20 ≤ c ∧ c ≤ n_samples
      ∧ (∀ ch, ch < n_channels → ∀ i, c ≤ i → i < n_samples → out ch i = 0)
      ∧ (∀ ch, ch < n_channels → ∀ n, n < rate / 20 →
          out ch (c - rate / 20 + n)
            = f32_rne (data ch (c - rate / 20 + n)
                * f32_rne (1 - f32_rne (f32_rne (n : ℚ) / f32_rne ((rate / 20 : Nat) : ℚ)))))
      ∧ (rate / 20 < 2 ^ 24 → ∀ ch, ch < n_channels → ∀ n, n < rate / 20 →
          |out ch (c - rate / 20 + n)
              - data ch (c - rate / 20 + n) * (1 - (n : ℚ) / ((rate / 20 : Nat) : ℚ))|
            ≤ |data ch (c - rate / 20 + n)| / 2 ^ 21 + 1 / 2 ^ 150)
      ∧ (∀ ch i, i < c - rate / 20 → out ch i = data ch i) := by
  have hb := trim_search_bounds sig_lvl sig_min (rate / 20) n_channels n_samples data
    n_samples 0 0 true (le_refl 0) (by omega)
  have hc1 : rate / 20 ≤ trim_search sig_lvl sig_min (rate / 20) n_channels n_samples data
      n_samples 0 0 true := by
    rcases hb with h | h
    · omega
    · exact h.1
  have hc2 : trim_search sig_lvl sig_min (rate / 20) n_channels n_samples data
      n_samples 0 0 true ≤ n_samples := by
    rcases hb with h | h
    · omega
    · omega
  have hfade : ∀ ch, ch < n_channels → ∀ n, n < rate / 20 →
      (fun c i =>
        if c < n_channels
            ∧ trim_search sig_lvl sig_min (rate / 20) n_channels n_samples data
                n_samples 0 0 true ≤ i
            ∧ i < n_samples then 0
        else if c < n_channels
            ∧ trim_search sig_lvl sig_min (rate / 20) n_channels n_samples data
                n_samples 0 0 true - rate / 20 ≤ i
            ∧ i < trim_search sig_lvl sig_min (rate / 20) n_channels n_samples data
                n_samples 0 0 true - rate / 20 + rate / 20 then
          f32_rne (data c i * f32_rne (1 - f32_rne (f32_rne ((i - (trim_search sig_lvl sig_min
            (rate / 20) n_channels n_samples data n_samples 0 0 true - rate / 20) : Nat) : ℚ)
              / f32_rne ((rate / 20 : Nat) : ℚ))))
        else data c i) ch
        (trim_search sig_lvl sig_min (rate / 20) n_channels n_samples data
          n_samples 0 0 true - rate / 20 + n)
      = f32_rne (data ch (trim_search sig_lvl sig_min (rate / 20) n_channels n_samples data
            n_samples 0 0 true - rate / 20 + n)
          * f32_rne (1 - f32_rne (f32_rne (n : ℚ) / f32_rne ((rate / 20 : Nat) : ℚ)))) := by
    intro ch hch n hn2
    have h1 : ¬ (trim_search sig_lvl sig_min (rate / 20) n_channels n_samples data
        n_samples 0 0 true ≤ trim_search sig_lvl sig_min (rate / 20) n_channels n_samples
        data n_samples 0 0 true - rate / 20 + n) := by omega
    simp only [hch, h1, true_and, false_and, if_false, Nat.le_add_right,
      Nat.add_lt_add_iff_left, hn2, if_true, Nat.add_sub_cancel_left]
  refine ⟨_, _, trim_end_eq f32_rne sig_lvl sig_min n_channels rate n_samples data hn, hc1,
    hc2, ?_, hfade, ?_, ?_⟩
  · intro ch hch i hi1 hi2
    simp [hch, hi1, hi2]
  · intro hW ch hch n hn2
    have e := fade_sample_err n (rate / 20) hW hn2
      (data ch (trim_search sig_lvl sig_min (rate / 20) n_channels n_samples data
        n_samples 0 0 true - rate / 20 + n))
    rw [← hfade ch hch n hn2] at e
    exact e
  · intro ch i hi
    have h1 : ¬ (trim_search sig_lvl sig_min (rate / 20) n_channels n_samples data
        n_samples 0 0 true ≤ i) := by omega
    have h2 : ¬ (trim_search sig_lvl sig_min (rate / 20) n_channels n_samples data
        n_samples 0 0 true - rate / 20 ≤ i) := by omega
    simp only [h1, h2, false_and, and_false, if_false]

/-- C6, at a concrete input: `rate = 60` (`W = 3`) on the samples
`1, 1/2048, 1/2048, 1/2048, 1/2048, 1, 1`. The cut is at index `4`; sample `0` is kept,
sample `2` is faded by the `float` ramp value `5592405 / 8388608`, and the full-scale
sample `5` after the cut is zeroed. -/
theorem trim_end_fade_and_zero_witness :
    ∃ c out, trim_end f32_rne level_m20dBFS level_m60dBFS 1 60 7 fade_input = some (c, out)
      ∧ c = 4 ∧ out 0 0 = 1 ∧ out 0 2 = 5592405 / 17179869184 ∧ out 0 5 = 0 := by
  obtain ⟨c, out, heq, _, _, hzero, hfade, _, hkeep⟩ :=
    trim_end_fade_and_zero level_m20dBFS level_m60dBFS 1 60 7 fade_input (by decide)
  have hcut := trim_end_fade_input_cut
  rw [heq] at hcut
  simp only [Option.map_some', Option.some.injEq] at hcut
  subst hcut
  refine ⟨4, out, heq, rfl, ?_, ?_, ?_⟩
  · rw [hkeep 0 0 (by decide)]
    simp [fade_input]
  · have h := hfade 0 (by decide) 1 (by decide)
    have hidx : 4 - 60 / 20 + 1 = 2 := by decide
    rw [hidx] at h
    rw [h]
    have hx : fade_input 0 2 = 1 / 2048 := by simp [fade_input]
    have h1 : f32_rne ((1 : Nat) : ℚ) = 1 := by
      simpa using f32_rne_natCast 1 (by norm_num)
    have h3 : f32_rne ((60 / 20 : Nat) : ℚ) = 3 := by
      have : (60 / 20 : Nat) = 3 := by decide
      rw [this]
      simpa using f32_rne_natCast 3 (by norm_num)
    have hq : f32_rne ((1 : ℚ) / 3) = 11184811 / 33554432 := by
      rw [f32_rne_eval (1 / 3) (-2) 11184811 (by norm_num) (by norm_num) (by norm_num)
        (by norm_num [abs_lt])]
      norm_num
    have hg : f32_rne ((1 : ℚ) - 11184811 / 33554432) = 5592405 / 8388608 := by
      rw [f32_rne_binade (1 - 11184811 / 33554432) (-1) (by norm_num) (by norm_num)
        (by norm_num)]
      have harg : ((1 : ℚ) - 11184811 / 33554432) / (2 : ℚ) ^ ((-1 : Int) - 23)
          = ((11184810 : Int) : ℚ) + 1 / 2 := by norm_num
      rw [harg, round_half_even_tie 11184810 (by decide)]
      norm_num
    rw [hx, h1, h3, hq, hg,
      f32_rne_eval (1 / 2048 * (5592405 / 8388608)) (-12) 11184810 (by norm_num)
        (by norm_num) (by norm_num) (by norm_num [abs_lt])]
    norm_num
  · exact hzero 0 (by decide) 5 (by decide) (by decide)

end FadeTheorems

end JackIr
